import Mathlib

/-!
Verification development for the AniList-discussion plugin
(markup parser and optimistic comment-tree mutator).

The TypeScript source is shallowly embedded:

* `ThreadComment` objects become the inductive `CNode`; the optional
  `childComments` field is identified with the empty list (the only use the
  mutator makes of it is `c.childComments ? recurse : c`, and recursing into
  an empty list returns an empty list, so the identification is invisible to
  structural equality).
* The tree rewrites `updateCommentInTree` (inside `handleToggleLike`),
  `addReplyToTree` / `removeInTree` (inside `handlePostReply`),
  `findAndUpdateInTree` (inside `handleEditComment`) and
  `removeCommentFromTree` (inside `handleDeleteComment`) are translated
  function-for-function; JavaScript `number` ids and counts become `Int`.
-/

namespace AnilistDiscussion

/-- Embedding of the `ThreadComment` interface: `user` is flattened to its
`name` and `avatar.large` fields, and the optional `childComments` and
`isOptimistic` fields are represented by a list and a `Bool`. -/
inductive CNode : Type where
  | mk (id : Int) (comment : String) (createdAt : Int) (likeCount : Int)
       (isLiked : Bool) (userName : String) (userAvatar : String)
       (childComments : List CNode) (isOptimistic : Bool)

/-- Identifier of a comment node. -/
def CNode.id : CNode → Int
  | .mk i _ _ _ _ _ _ _ _ => i

/-- Raw comment text of a node. -/
def CNode.comment : CNode → String
  | .mk _ cm _ _ _ _ _ _ _ => cm

/-- Like counter of a node. -/
def CNode.likeCount : CNode → Int
  | .mk _ _ _ lc _ _ _ _ _ => lc

/-- Whether the current user has liked the node. -/
def CNode.isLiked : CNode → Bool
  | .mk _ _ _ _ il _ _ _ _ => il

/-- Child comments of a node. -/
def CNode.childComments : CNode → List CNode
  | .mk _ _ _ _ _ _ _ ch _ => ch

/-- Whether the node at any depth of the forest carries the given id
(the full-tree search used implicitly by all mutators). -/
def idInTree (cid : Int) : List CNode → Bool
  | [] => false
  | .mk i _ _ _ _ _ _ ch _ :: rest =>
      i == cid || idInTree cid ch || idInTree cid rest

/-- Embedding of `updateCommentInTree` from `handleToggleLike`: map over the
forest; a node whose id matches gets `isLiked` negated and `likeCount`
adjusted by minus one when it was liked and plus one otherwise (its children
are left untouched); any other node is rebuilt with its children rewritten
recursively. -/
def updateCommentInTree (cid : Int) : List CNode → List CNode
  | [] => []
  | .mk i cm ca lc il un ua ch op :: rest =>
      (if i = cid then
        CNode.mk i cm ca (if il then lc - 1 else lc + 1) (!il) un ua ch op
      else
        CNode.mk i cm ca lc il un ua (updateCommentInTree cid ch) op)
        :: updateCommentInTree cid rest

/-- Embedding of `addReplyToTree` from `handlePostReply`: a node whose id
equals the parent id gets `newC` appended at the end of its children (and is
not recursed into); any other node has its children rewritten recursively. -/
def addReplyToTree (pId : Int) (newC : CNode) : List CNode → List CNode
  | [] => []
  | .mk i cm ca lc il un ua ch op :: rest =>
      (if i = pId then
        CNode.mk i cm ca lc il un ua (ch ++ [newC]) op
      else
        CNode.mk i cm ca lc il un ua (addReplyToTree pId newC ch) op)
        :: addReplyToTree pId newC rest

/-- Embedding of `removeInTree` from the failure branch of `handlePostReply`:
filter out every node with the given id at this level (dropping its whole
subtree), then rewrite the children of the survivors recursively. The
`filter`-then-`map` of the source is fused into one recursion. -/
def removeInTree (cid : Int) : List CNode → List CNode
  | [] => []
  | .mk i cm ca lc il un ua ch op :: rest =>
      if i = cid then removeInTree cid rest
      else CNode.mk i cm ca lc il un ua (removeInTree cid ch) op
        :: removeInTree cid rest

/-- Embedding of `removeCommentFromTree` from `handleDeleteComment`; its
source body is textually identical to `removeInTree`. -/
def removeCommentFromTree (cid : Int) : List CNode → List CNode :=
  removeInTree cid

/-- Embedding of `findAndUpdateInTree` from `handleEditComment`, restricted to
the tree it produces (the capture of the previous text into `originalText` is
a side effect that does not influence the resulting tree): a node whose id
matches gets its `comment` replaced by `newText`; others recurse. -/
def findAndUpdateInTree (cid : Int) (newText : String) : List CNode → List CNode
  | [] => []
  | .mk i cm ca lc il un ua ch op :: rest =>
      (if i = cid then
        CNode.mk i newText ca lc il un ua ch op
      else
        CNode.mk i cm ca lc il un ua (findAndUpdateInTree cid newText ch) op)
        :: findAndUpdateInTree cid newText rest

/-- Embedding of the optimistic insertion step of `handlePostReply`
(lines `if (parentCommentId) ... else ...`): with a parent id the reply is
added with `addReplyToTree`, without one it is prepended to the top level. -/
def optimisticInsert (parentId : Option Int) (newC : CNode) (l : List CNode) :
    List CNode :=
  match parentId with
  | some pId => addReplyToTree pId newC l
  | none => newC :: l

/-- Size measure for forests of comment nodes, used for induction. -/
def sizeL : List CNode → Nat
  | [] => 0
  | .mk _ _ _ _ _ _ _ ch _ :: rest => 1 + sizeL ch + sizeL rest

/-- Induction principle for comment forests: to prove a property of every
forest it suffices to prove it for the empty forest and for a cons whose
head's children and whose tail both satisfy it. -/
theorem forestInd {P : List CNode → Prop}
    (base : P [])
    (step : ∀ i cm ca lc il un ua ch op rest,
      P ch → P rest → P (CNode.mk i cm ca lc il un ua ch op :: rest)) :
    ∀ l, P l := by
  intro l
  generalize h : sizeL l = n
  induction n using Nat.strong_induction_on generalizing l with
  | _ n ih =>
    match l with
    | [] => exact base
    | .mk i cm ca lc il un ua ch op :: rest =>
      simp only [sizeL] at h
      exact step i cm ca lc il un ua ch op rest
        (ih (sizeL ch) (by omega) ch rfl)
        (ih (sizeL rest) (by omega) rest rfl)

/-- Toggling the like state of the same id twice is the identity on the
whole forest. -/
theorem updateCommentInTree_invol (cid : Int) :
    ∀ l : List CNode, updateCommentInTree cid (updateCommentInTree cid l) = l := by
  intro l
  induction l using forestInd with
  | base => simp [updateCommentInTree]
  | step i cm ca lc il un ua ch op rest ihCh ihRest =>
    by_cases h : i = cid
    · subst h
      cases il <;> simp [updateCommentInTree, ihRest]
    · simp only [updateCommentInTree, if_neg h, ihCh, ihRest]

/-- An id that occurs nowhere in the forest makes the like-toggle rewrite a
no-op. -/
theorem updateCommentInTree_absent (cid : Int) :
    ∀ l : List CNode, idInTree cid l = false → updateCommentInTree cid l = l := by
  intro l
  induction l using forestInd with
  | base => intro _; simp [updateCommentInTree]
  | step i cm ca lc il un ua ch op rest ihCh ihRest =>
    intro h
    simp only [idInTree, Bool.or_eq_false_iff, beq_eq_false_iff_ne, ne_eq] at h
    obtain ⟨⟨hi, hch⟩, hrest⟩ := h
    simp only [updateCommentInTree, if_neg hi, ihCh hch, ihRest hrest]

/-- An id that occurs nowhere in the forest makes the edit rewrite a no-op. -/
theorem findAndUpdateInTree_absent (cid : Int) (t : String) :
    ∀ l : List CNode, idInTree cid l = false → findAndUpdateInTree cid t l = l := by
  intro l
  induction l using forestInd with
  | base => intro _; simp [findAndUpdateInTree]
  | step i cm ca lc il un ua ch op rest ihCh ihRest =>
    intro h
    simp only [idInTree, Bool.or_eq_false_iff, beq_eq_false_iff_ne, ne_eq] at h
    obtain ⟨⟨hi, hch⟩, hrest⟩ := h
    simp only [findAndUpdateInTree, if_neg hi, ihCh hch, ihRest hrest]

/-- An id that occurs nowhere in the forest makes the removal rewrite a
no-op. -/
theorem removeInTree_absent (cid : Int) :
    ∀ l : List CNode, idInTree cid l = false → removeInTree cid l = l := by
  intro l
  induction l using forestInd with
  | base => intro _; simp [removeInTree]
  | step i cm ca lc il un ua ch op rest ihCh ihRest =>
    intro h
    simp only [idInTree, Bool.or_eq_false_iff, beq_eq_false_iff_ne, ne_eq] at h
    obtain ⟨⟨hi, hch⟩, hrest⟩ := h
    simp only [removeInTree, if_neg hi, ihCh hch, ihRest hrest]

/-- Removal distributes over appending two forests. -/
theorem removeInTree_append (cid : Int) :
    ∀ a b : List CNode,
      removeInTree cid (a ++ b) = removeInTree cid a ++ removeInTree cid b := by
  intro a b
  induction a using forestInd with
  | base => simp [removeInTree]
  | step i cm ca lc il un ua ch op rest ihCh ihRest =>
    by_cases h : i = cid
    · simp only [List.cons_append, removeInTree, if_pos h, ihRest]
    · simp only [List.cons_append, removeInTree, if_neg h, ihRest]

/-- Frame relation for the like-toggle rewrite: the two forests have the same
shape; at every position the second node agrees with the first on `id`,
`comment`, `createdAt`, `userName`, `userAvatar` and `isOptimistic`; a node
whose id differs from the target also keeps `likeCount` and `isLiked`, with
its children related recursively; a node whose id is the target keeps its
children untouched. -/
def likeFrame (cid : Int) : List CNode → List CNode → Prop
  | [], [] => True
  | .mk i cm ca lc il un ua ch op :: rest,
    .mk i' cm' ca' lc' il' un' ua' ch' op' :: rest' =>
      i' = i ∧ cm' = cm ∧ ca' = ca ∧ un' = un ∧ ua' = ua ∧ op' = op ∧
      (i ≠ cid → lc' = lc ∧ il' = il ∧ likeFrame cid ch ch') ∧
      (i = cid → ch' = ch) ∧
      likeFrame cid rest rest'
  | _, _ => False

/-- Frame relation for the optimistic reply insertion: the two forests have
the same shape; every node keeps all of its non-children fields; a node whose
id is the parent id gets exactly `newC` appended at the end of its children;
any other node has its children related recursively (so sibling order never
changes anywhere). -/
def replyFrame (pId : Int) (newC : CNode) : List CNode → List CNode → Prop
  | [], [] => True
  | .mk i cm ca lc il un ua ch op :: rest,
    .mk i' cm' ca' lc' il' un' ua' ch' op' :: rest' =>
      i' = i ∧ cm' = cm ∧ ca' = ca ∧ lc' = lc ∧ il' = il ∧ un' = un ∧
      ua' = ua ∧ op' = op ∧
      (i = pId → ch' = ch ++ [newC]) ∧
      (i ≠ pId → replyFrame pId newC ch ch') ∧
      replyFrame pId newC rest rest'
  | _, _ => False

/-- The like-toggle rewrite satisfies its frame relation. -/
theorem updateCommentInTree_frame (cid : Int) :
    ∀ l : List CNode, likeFrame cid l (updateCommentInTree cid l) := by
  intro l
  induction l using forestInd with
  | base => simp [updateCommentInTree, likeFrame]
  | step i cm ca lc il un ua ch op rest ihCh ihRest =>
    by_cases h : i = cid
    · simp [updateCommentInTree, if_pos h, likeFrame, h, ihRest]
    · simp [updateCommentInTree, if_neg h, likeFrame, h, ihCh, ihRest]

/-- The reply insertion with a parent id satisfies its frame relation. -/
theorem addReplyToTree_frame (pId : Int) (newC : CNode) :
    ∀ l : List CNode, replyFrame pId newC l (addReplyToTree pId newC l) := by
  intro l
  induction l using forestInd with
  | base => simp [addReplyToTree, replyFrame]
  | step i cm ca lc il un ua ch op rest ihCh ihRest =>
    by_cases h : i = pId
    · simp [addReplyToTree, if_pos h, replyFrame, h, ihRest]
    · simp [addReplyToTree, if_neg h, replyFrame, h, ihCh, ihRest]

/-- Rolling back a reply insertion under a parent id restores the original
forest, provided the placeholder id occurs nowhere in it. -/
theorem removeInTree_addReplyToTree (pId : Int) (newC : CNode) :
    ∀ l : List CNode, idInTree newC.id l = false →
      removeInTree newC.id (addReplyToTree pId newC l) = l := by
  intro l
  induction l using forestInd with
  | base => intro _; simp [addReplyToTree, removeInTree]
  | step i cm ca lc il un ua ch op rest ihCh ihRest =>
    intro h
    simp only [idInTree, Bool.or_eq_false_iff, beq_eq_false_iff_ne, ne_eq] at h
    obtain ⟨⟨hi, hch⟩, hrest⟩ := h
    by_cases hp : i = pId
    · have hnew : removeInTree newC.id [newC] = [] := by
        match newC with
        | .mk j cm' ca' lc' il' un' ua' ch' op' =>
          simp [removeInTree, CNode.id]
      simp only [addReplyToTree, if_pos hp, removeInTree, if_neg hi,
        removeInTree_append, removeInTree_absent _ _ hch, ihRest hrest, hnew,
        List.append_nil]
    · simp only [addReplyToTree, if_neg hp, removeInTree, if_neg hi,
        ihCh hch, ihRest hrest]

/-- C3: applying the optimistic like-toggle transform twice with the same id
returns every node's `likeCount` and `isLiked` (indeed the whole forest) to
its original value; concretely, on a tree with one top-level comment
with id 1, likeCount 3 and isLiked false, toggling id 1 yields likeCount 4
and isLiked true, and toggling again restores likeCount 3 and
isLiked false. -/
theorem claim_C3_like_toggle_symmetry :
    (∀ (cid : Int) (l : List CNode),
        updateCommentInTree cid (updateCommentInTree cid l) = l) ∧
    updateCommentInTree 1 [CNode.mk 1 "hello" 100 3 false "alice" "av" [] false]
      = [CNode.mk 1 "hello" 100 4 true "alice" "av" [] false] ∧
    updateCommentInTree 1 [CNode.mk 1 "hello" 100 4 true "alice" "av" [] false]
      = [CNode.mk 1 "hello" 100 3 false "alice" "av" [] false] := by
  refine ⟨fun cid l => updateCommentInTree_invol cid l, ?_, ?_⟩
  · simp [updateCommentInTree]
  · simp [updateCommentInTree]

/-- C9: the optimistic like-toggle transform is frame-preserving — the
rewritten forest has the same shape as the original, every node keeps its
`id`, `comment`, `createdAt`, author fields and `isOptimistic`, every node
whose id differs from the target also keeps `likeCount` and `isLiked`, and
sibling order at every level is unchanged; only the matching node's
`isLiked` and `likeCount` change. -/
theorem claim_C9_like_toggle_frame (cid : Int) (l : List CNode) :
    likeFrame cid l (updateCommentInTree cid l) :=
  updateCommentInTree_frame cid l

/-- C10: an id that occurs on no node of the forest makes each of the
optimistic transforms — like-toggle, edit and delete — return the forest
unchanged. -/
theorem claim_C10_absent_id_noop (cid : Int) (t : String) (l : List CNode)
    (h : idInTree cid l = false) :
    updateCommentInTree cid l = l ∧ findAndUpdateInTree cid t l = l ∧
      removeCommentFromTree cid l = l := by
  refine ⟨updateCommentInTree_absent cid l h, findAndUpdateInTree_absent cid t l h, ?_⟩
  simp only [removeCommentFromTree]
  exact removeInTree_absent cid l h

/-- Witness for C10 at a concrete two-level tree and the absent id 7. -/
theorem claim_C10_absent_id_noop_witness :
    updateCommentInTree 7
        [CNode.mk 1 "a" 10 2 false "u" "v"
          [CNode.mk 2 "b" 11 0 true "w" "x" [] false] false]
      = [CNode.mk 1 "a" 10 2 false "u" "v"
          [CNode.mk 2 "b" 11 0 true "w" "x" [] false] false] ∧
    findAndUpdateInTree 7 "zz"
        [CNode.mk 1 "a" 10 2 false "u" "v"
          [CNode.mk 2 "b" 11 0 true "w" "x" [] false] false]
      = [CNode.mk 1 "a" 10 2 false "u" "v"
          [CNode.mk 2 "b" 11 0 true "w" "x" [] false] false] ∧
    removeCommentFromTree 7
        [CNode.mk 1 "a" 10 2 false "u" "v"
          [CNode.mk 2 "b" 11 0 true "w" "x" [] false] false]
      = [CNode.mk 1 "a" 10 2 false "u" "v"
          [CNode.mk 2 "b" 11 0 true "w" "x" [] false] false] :=
  claim_C10_absent_id_noop 7 "zz"
    [CNode.mk 1 "a" 10 2 false "u" "v"
      [CNode.mk 2 "b" 11 0 true "w" "x" [] false] false]
    (by simp [idInTree])

/-- C4: for every forest in which no node carries the placeholder id of the
freshly built optimistic reply, performing the optimistic insertion (under a
parent id or at the top level) and then the failure rollback — removal of the
node with the placeholder id — yields a forest structurally equal to the
original. -/
theorem claim_C4_addReply_rollback (parentId : Option Int) (newC : CNode)
    (l : List CNode) (h : idInTree newC.id l = false) :
    removeInTree newC.id (optimisticInsert parentId newC l) = l := by
  match parentId with
  | some pId => exact removeInTree_addReplyToTree pId newC l h
  | none =>
    match newC with
    | .mk j cm ca lc il un ua ch op =>
      simp only [optimisticInsert, removeInTree, CNode.id, if_pos rfl]
      exact removeInTree_absent j l (by simpa [CNode.id] using h)

/-- Witness for C4: inserting a reply with placeholder id 99 under parent 1
and rolling back restores the concrete one-node tree. -/
theorem claim_C4_addReply_rollback_witness :
    removeInTree (CNode.mk 99 "hi" 50 0 false "me" "av" [] true).id
        (optimisticInsert (some 1)
          (CNode.mk 99 "hi" 50 0 false "me" "av" [] true)
          [CNode.mk 1 "root" 10 2 false "u" "v" [] false])
      = [CNode.mk 1 "root" 10 2 false "u" "v" [] false] :=
  claim_C4_addReply_rollback (some 1)
    (CNode.mk 99 "hi" 50 0 false "me" "av" [] true)
    [CNode.mk 1 "root" 10 2 false "u" "v" [] false]
    (by simp [idInTree, CNode.id])

/-- C7: the optimistic reply is placed deterministically — with no parent id
it becomes the new first top-level node; with a parent id, every node whose
id matches the parent gets the new node appended as the last element of its
children, every other node keeps all of its fields with its children related
recursively, and sibling order never changes anywhere. -/
theorem claim_C7_addReply_placement :
    (∀ (newC : CNode) (l : List CNode),
        optimisticInsert none newC l = newC :: l) ∧
    (∀ (pId : Int) (newC : CNode) (l : List CNode),
        replyFrame pId newC l (optimisticInsert (some pId) newC l)) := by
  refine ⟨fun newC l => rfl, fun pId newC l => ?_⟩
  simp only [optimisticInsert]
  exact addReplyToTree_frame pId newC l

/-! ### The markup parser

The parsing engine of `parseComment` is embedded over `List Char`.  Each
anchored JavaScript regular expression of the source is translated into an
explicit scanning function with the same semantics (greedy character-class
runs, lazy `*?` and `+?` quantifiers, ordered alternation).  JavaScript
specifics kept by the embedding: `\w` is ASCII `[A-Za-z0-9_]`, `.` does not
match a line terminator, `\s` is modelled by its ASCII members (the Unicode
space characters play no role in any claim), and the multiline flag treats
both newline and carriage return as line terminators. -/

/-- The backtick character, code point 96. -/
def btick : Char := Char.ofNat 96

/-- ASCII approximation of the JavaScript whitespace class. -/
def isWs (c : Char) : Bool :=
  c = ' ' || c = '\t' || c = '\n' || c = '\r' || c = Char.ofNat 11 || c = Char.ofNat 12

/-- JavaScript `\w` together with a dash, as in the mention rule. -/
def isWordDash (c : Char) : Bool :=
  c.isAlphanum || c = '_' || c = '-'

/-- Characters the JavaScript dot does not match (ASCII part). -/
def isNl (c : Char) : Bool :=
  c = '\n' || c = '\r'

/-- Consume an exact (case-sensitive) prefix, returning the suffix. -/
def eatP (pat : List Char) (l : List Char) : Option (List Char) :=
  match pat, l with
  | [], l => some l
  | _ :: _, [] => none
  | p :: ps, c :: cs => if c = p then eatP ps cs else none

/-- Consume a prefix case-insensitively (the pattern is given in lower
case), for the `/i`-flagged HTML tag rules. -/
def eatCI (pat : List Char) (l : List Char) : Option (List Char) :=
  match pat, l with
  | [], l => some l
  | _ :: _, [] => none
  | p :: ps, c :: cs => if c.toLower = p then eatCI ps cs else none

/-- Lazy `[\s\S]*?` up to a closing delimiter: the shortest (possibly
empty) content such that `closer` follows; returns the content and the
suffix after the closer. -/
def lazySplit (closer : List Char) : List Char → Option (List Char × List Char)
  | [] => if closer.isEmpty then some ([], []) else none
  | l@(c :: rest) =>
      if closer.isPrefixOf l then some ([], l.drop closer.length)
      else
        match lazySplit closer rest with
        | some (a, b) => some (c :: a, b)
        | none => none

/-- Lazy `[\s\S]+?` up to a closing delimiter: like `lazySplit` but the
content must be nonempty. -/
def lazySplit1 (closer : List Char) : List Char → Option (List Char × List Char)
  | [] => none
  | c :: rest =>
      match lazySplit closer rest with
      | some (a, b) => some (c :: a, b)
      | none => none

/-- Lazy `[\s\S]*?` up to a case-insensitive closing delimiter, for the
HTML bold and anchor rules. -/
def lazySplitCI (closer : List Char) : List Char → Option (List Char × List Char)
  | [] => match eatCI closer [] with
      | some r => some ([], r)
      | none => none
  | c :: rest =>
      match eatCI closer (c :: rest) with
      | some r => some ([], r)
      | none =>
        match lazySplitCI closer rest with
        | some (a, b) => some (c :: a, b)
        | none => none

/-- Lazy `([\s\S]+?)` anchored by a closer and the end of the text, for
the lone-formatter rules: the shortest nonempty content such that the
remainder is exactly `closer`. -/
def lazyEnd1 (closer : List Char) : List Char → Option (List Char)
  | [] => none
  | c :: rest =>
      if rest = closer then some [c]
      else
        match lazyEnd1 closer rest with
        | some a => some (c :: a)
        | none => none

/-- Lazy `(.*?)\)` of the custom image rule: content up to the first
closing parenthesis, failing when a line terminator comes first (the
JavaScript dot does not cross lines). -/
def scanParen : List Char → Option (List Char × List Char)
  | [] => none
  | c :: rest =>
      if c = ')' then some ([], rest)
      else if isNl c then none
      else
        match scanParen rest with
        | some (a, b) => some (c :: a, b)
        | none => none

/-- Embedding of the `CommentSegment` objects: one constructor per value of
the `type` tag, keeping exactly the payload fields the source stores for
that tag.  `link` appears twice because the source stores either a raw
string (markdown links, bare URLs, youtube/video embeds) or a list of
nested segments (HTML anchors) in `content`. -/
inductive Seg : Type where
  | text (content : String)
  | userLink (content : String) (username : String)
  | image (content : String) (url : Option String)
  | bold (children : List Seg)
  | italic (children : List Seg)
  | strike (children : List Seg)
  | spoiler (children : List Seg)
  | linkSegs (children : List Seg) (url : String)
  | linkStr (content : String) (url : String)
  | inlineCode (content : String)
  | codeBlock (content : String)
  | center (children : List Seg)
  | heading (children : List Seg) (level : Nat)
  | blockquote (children : List Seg)
  | hr
  | br

/-- Leaf payloads an inline rule can produce without recursing. -/
inductive LeafOut : Type where
  | userLink (content : String) (username : String)
  | image (content : String) (url : Option String)
  | linkStr (content : String) (url : String)
  | inlineCode (content : String)

/-- Container kinds an inline rule recurses into. -/
inductive RecTag : Type where
  | bold
  | italic
  | strike
  | spoiler
  | link (url : String)

/-- Result of one inline rule: either a finished leaf or a container tag
with the raw content the engine re-enters `parseInline` on. -/
inductive RuleOut : Type where
  | leaf (s : LeafOut)
  | recur (tag : RecTag) (content : List Char)

/-- Rule 1, mention: regex `@([\w-]+)` anchored; the whole match is the
displayed content and the captured run is the username. -/
def matchUserLink (l : List Char) : Option (RuleOut × List Char) :=
  match l with
  | [] => none
  | c :: rest =>
      if c = '@' then
        if (rest.takeWhile isWordDash).isEmpty then none
        else some (.leaf (.userLink (String.mk ('@' :: rest.takeWhile isWordDash))
          (String.mk (rest.takeWhile isWordDash))), rest.dropWhile isWordDash)
      else none

/-- Shared scanner for `\s+` (at least one whitespace, then the maximal
run). -/
def eatWs1 (l : List Char) : Option (List Char) :=
  match l with
  | c :: rest => if isWs c then some (rest.dropWhile isWs) else none
  | [] => none

/-- Negated character class `[^"]`. -/
def notQuote (c : Char) : Bool := c ≠ '"'

/-- Negated character class `[^>]`. -/
def notGt (c : Char) : Bool := c ≠ '>'

/-- Negated character class `[^)]`. -/
def notRp (c : Char) : Bool := c ≠ ')'

/-- Negated character class `[^\]]`. -/
def notRb (c : Char) : Bool := c ≠ ']'

/-- Shared scanner for `([^"]+)"`: the maximal nonempty run without a
double quote, then the closing quote. -/
def eatAttrValue (l : List Char) : Option (List Char × List Char) :=
  if (l.takeWhile notQuote).isEmpty then none
  else
    match l.dropWhile notQuote with
    | _ :: rest => some (l.takeWhile notQuote, rest)
    | [] => none

/-- Shared scanner for `[^>]*>`: skip to the first closing angle bracket
and consume it. -/
def eatToGt (l : List Char) : Option (List Char) :=
  match l.dropWhile notGt with
  | _ :: rest => some rest
  | [] => none

/-- Rule 2, anchor-wrapped image: regex
`<a\s+href="([^"]+)"[^>]*>\s*<img\s+src="([^"]+)"[^>]*>\s*<\/a>` with the
ignore-case flag; yields an image whose `url` is the anchor target. -/
def matchAnchorImage (l : List Char) : Option (RuleOut × List Char) :=
  (eatCI "<a".data l).bind fun l1 =>
  (eatWs1 l1).bind fun l2 =>
  (eatCI "href=\"".data l2).bind fun l3 =>
  (eatAttrValue l3).bind fun p =>
  (eatToGt p.2).bind fun l4 =>
  (eatCI "<img".data (l4.dropWhile isWs)).bind fun l5 =>
  (eatWs1 l5).bind fun l6 =>
  (eatCI "src=\"".data l6).bind fun l7 =>
  (eatAttrValue l7).bind fun q =>
  (eatToGt q.2).bind fun l8 =>
  (eatCI "</a>".data (l8.dropWhile isWs)).bind fun l9 =>
  some (.leaf (.image (String.mk q.1) (some (String.mk p.1))), l9)

/-- Rule 3, bare image tag: regex `<img\s+src="([^"]+)"[^>]*>` with the
ignore-case flag; no link target. -/
def matchImgTag (l : List Char) : Option (RuleOut × List Char) :=
  (eatCI "<img".data l).bind fun l1 =>
  (eatWs1 l1).bind fun l2 =>
  (eatCI "src=\"".data l2).bind fun l3 =>
  (eatAttrValue l3).bind fun p =>
  (eatToGt p.2).bind fun l4 =>
  some (.leaf (.image (String.mk p.1) none), l4)

/-- Rule 4, HTML bold: regex `<b>([\s\S]*?)<\/b>` with the ignore-case
flag; recurses into the content. -/
def matchBoldHtml (l : List Char) : Option (RuleOut × List Char) :=
  (eatCI "<b>".data l).bind fun l1 =>
  (lazySplitCI "</b>".data l1).bind fun p =>
  some (.recur .bold p.1, p.2)

/-- Rule 5, HTML anchor: regex `<a\s+href="([^"]+)"[^>]*>([\s\S]*?)<\/a>`
with the ignore-case flag; recurses into the anchor text. -/
def matchAnchorTag (l : List Char) : Option (RuleOut × List Char) :=
  (eatCI "<a".data l).bind fun l1 =>
  (eatWs1 l1).bind fun l2 =>
  (eatCI "href=\"".data l2).bind fun l3 =>
  (eatAttrValue l3).bind fun p =>
  (eatToGt p.2).bind fun l4 =>
  (lazySplitCI "</a>".data l4).bind fun q =>
  some (.recur (.link (String.mk p.1)) q.1, q.2)

/-- Rule 6, custom image embed: regex `img(\d*)\((.*?)\)`; the digit run is
matched but unused by the source, the parenthesised content is the image
source. -/
def matchImgEmbed (l : List Char) : Option (RuleOut × List Char) :=
  (eatP "img".data l).bind fun l1 =>
  (eatP "(".data (l1.dropWhile Char.isDigit)).bind fun l2 =>
  (scanParen l2).bind fun p =>
  some (.leaf (.image (String.mk p.1) none), p.2)

/-- Rule 7, youtube embed: regex `youtube\(([^)]+)\)`; the source's
`process` overrides the segment type to `link` with the canonical watch
URL. -/
def matchYoutube (l : List Char) : Option (RuleOut × List Char) :=
  (eatP "youtube(".data l).bind fun l1 =>
  if (l1.takeWhile notRp).isEmpty then none
  else
    match l1.dropWhile notRp with
    | _ :: rest =>
        some (.leaf (.linkStr
          (String.mk ("youtube.com/watch?v=".data ++ l1.takeWhile notRp))
          (String.mk ("https://www.youtube.com/watch?v=".data ++
            l1.takeWhile notRp))), rest)
    | [] => none

/-- Rule 8, video embed: regex `video\(([^)]+)\)`; also overridden to a
`link` whose content and url are both the captured text. -/
def matchVideo (l : List Char) : Option (RuleOut × List Char) :=
  (eatP "video(".data l).bind fun l1 =>
  if (l1.takeWhile notRp).isEmpty then none
  else
    match l1.dropWhile notRp with
    | _ :: rest => some (.leaf (.linkStr (String.mk (l1.takeWhile notRp))
        (String.mk (l1.takeWhile notRp))), rest)
    | [] => none

/-- Rule 9, markdown link: regex `\[([^\]]+)\]\(([^)]+)\)`; the link text
is stored as a raw string, not parsed further. -/
def matchMdLink (l : List Char) : Option (RuleOut × List Char) :=
  (eatP "[".data l).bind fun l1 =>
  if (l1.takeWhile notRb).isEmpty then none
  else
    match l1.dropWhile notRb with
    | _ :: l2 =>
      (eatP "(".data l2).bind fun l3 =>
      if (l3.takeWhile notRp).isEmpty then none
      else
        match l3.dropWhile notRp with
        | _ :: rest => some (.leaf (.linkStr (String.mk (l1.takeWhile notRb))
            (String.mk (l3.takeWhile notRp))), rest)
        | [] => none
    | [] => none

/-- Rule 10, markdown bold: regex `\*\*([\s\S]+?)\*\*|__([\s\S]+?)__`,
alternatives tried in order; recurses into the content. -/
def matchBoldMd (l : List Char) : Option (RuleOut × List Char) :=
  match (eatP "**".data l).bind (lazySplit1 "**".data) with
  | some p => some (.recur .bold p.1, p.2)
  | none =>
    match (eatP "__".data l).bind (lazySplit1 "__".data) with
    | some p => some (.recur .bold p.1, p.2)
    | none => none

/-- Rule 11, markdown italic: regex `\*([\s\S]+?)\*|_([\s\S]+?)_`;
recurses into the content. -/
def matchItalicMd (l : List Char) : Option (RuleOut × List Char) :=
  match (eatP "*".data l).bind (lazySplit1 "*".data) with
  | some p => some (.recur .italic p.1, p.2)
  | none =>
    match (eatP "_".data l).bind (lazySplit1 "_".data) with
    | some p => some (.recur .italic p.1, p.2)
    | none => none

/-- Rule 12, strike: regex `~~([\s\S]+?)~~`; recurses into the content. -/
def matchStrike (l : List Char) : Option (RuleOut × List Char) :=
  match (eatP "~~".data l).bind (lazySplit1 "~~".data) with
  | some p => some (.recur .strike p.1, p.2)
  | none => none

/-- Rule 13, spoiler (first marker ordering): regex `!~([\s\S]+?)!~`. -/
def matchSpoilerA (l : List Char) : Option (RuleOut × List Char) :=
  match (eatP "!~".data l).bind (lazySplit1 "!~".data) with
  | some p => some (.recur .spoiler p.1, p.2)
  | none => none

/-- Rule 14, spoiler (second marker ordering): regex `~!([\s\S]+?)!~`. -/
def matchSpoilerB (l : List Char) : Option (RuleOut × List Char) :=
  match (eatP "~!".data l).bind (lazySplit1 "!~".data) with
  | some p => some (.recur .spoiler p.1, p.2)
  | none => none

/-- Negated character class of a backtick. -/
def notBtick (c : Char) : Bool := c ≠ btick

/-- Rule 15, inline code: regex with a backtick, a lazy nonempty run of
non-backtick characters, and a closing backtick; the content is preserved
verbatim. -/
def matchInlineCode (l : List Char) : Option (RuleOut × List Char) :=
  match l with
  | c :: rest =>
      if c = btick then
        if (rest.takeWhile notBtick).isEmpty then none
        else
          match rest.dropWhile notBtick with
          | _ :: after =>
              some (.leaf (.inlineCode (String.mk (rest.takeWhile notBtick))), after)
          | [] => none
      else none
  | [] => none

/-- Characters excluded from the bare-URL run: whitespace and the class
written in the source as angle brackets, quotes, braces, pipe, backslash,
caret, backtick and square brackets. -/
def isUrlStop (c : Char) : Bool :=
  isWs c || c = '<' || c = '>' || c = '"' || c = Char.ofNat 39 ||
  c = Char.ofNat 123 || c = Char.ofNat 125 || c = '|' || c = '\\' ||
  c = '^' || c = btick || c = '[' || c = ']'

/-- Character class of the bare-URL run (negation of `isUrlStop`). -/
def urlChar (c : Char) : Bool := !isUrlStop c

/-- Rule 16, bare URL: regex `https?:\/\/` followed by a maximal nonempty
run of non-excluded characters; content and url are the whole match. -/
def matchBareUrl (l : List Char) : Option (RuleOut × List Char) :=
  match eatP "https://".data l with
  | some r =>
      if (r.takeWhile urlChar).isEmpty then none
      else some (.leaf (.linkStr
        (String.mk ("https://".data ++ r.takeWhile urlChar))
        (String.mk ("https://".data ++ r.takeWhile urlChar))),
        r.dropWhile urlChar)
  | none =>
    match eatP "http://".data l with
    | some r =>
        if (r.takeWhile urlChar).isEmpty then none
        else some (.leaf (.linkStr
          (String.mk ("http://".data ++ r.takeWhile urlChar))
          (String.mk ("http://".data ++ r.takeWhile urlChar))),
          r.dropWhile urlChar)
    | none => none

/-- The ordered rule table of `inlineRules`, first match wins. -/
def inlineRules : List (List Char → Option (RuleOut × List Char)) :=
  [matchUserLink, matchAnchorImage, matchImgTag, matchBoldHtml,
   matchAnchorTag, matchImgEmbed, matchYoutube, matchVideo, matchMdLink,
   matchBoldMd, matchItalicMd, matchStrike, matchSpoilerA, matchSpoilerB,
   matchInlineCode, matchBareUrl]

/-- Try each rule in order and keep the first success. -/
def firstMatch (rs : List (List Char → Option (RuleOut × List Char)))
    (l : List Char) : Option (RuleOut × List Char) :=
  match rs with
  | [] => none
  | r :: rest =>
    match r l with
    | some out => some out
    | none => firstMatch rest l

/-- One step of the inline engine: the first rule of `inlineRules` that
matches at the current position. -/
def matchInline (l : List Char) : Option (RuleOut × List Char) :=
  firstMatch inlineRules l

/-- Single combined next-special-character scan of the no-match branch:
whether some alternative of the search pattern
`@[\w-]+|\[|!~|~!|https?:\/\/|` backtick `|\*\*|\*|__|_|~~|img\(|youtube\(|video\(|<[a|img|b]`
matches at the head of the text. -/
def tokenAt (l : List Char) : Bool :=
  (match l with
   | c :: d :: _ => c = '@' && isWordDash d
   | _ => false) ||
  (eatP "[".data l).isSome || (eatP "!~".data l).isSome ||
  (eatP "~!".data l).isSome || (eatP "http://".data l).isSome ||
  (eatP "https://".data l).isSome || (eatP [btick] l).isSome ||
  (eatP "**".data l).isSome || (eatP "*".data l).isSome ||
  (eatP "__".data l).isSome || (eatP "_".data l).isSome ||
  (eatP "~~".data l).isSome || (eatP "img(".data l).isSome ||
  (eatP "youtube(".data l).isSome || (eatP "video(".data l).isSome ||
  (match l with
   | c :: d :: _ =>
       c = '<' && (d = 'a' || d = '|' || d = 'i' || d = 'm' || d = 'g' || d = 'b')
   | _ => false)

/-- Index of the first position at which the combined token scan matches
(the `text.search` of the source), if any. -/
def nextTokenIdx : List Char → Option Nat
  | [] => none
  | c :: rest =>
      if tokenAt (c :: rest) then some 0
      else
        match nextTokenIdx rest with
        | some j => some (j + 1)
        | none => none

/-- Length of the plain-text run consumed by the no-match branch:
up to the next token (the whole text when there is none), but at least one
character. -/
def fallbackLen (l : List Char) : Nat :=
  match nextTokenIdx l with
  | none => l.length
  | some 0 => 1
  | some (j + 1) => j + 1

/-- Push a plain-text run in front of already-built segments, coalescing
with an adjacent text segment exactly as the source appends to the last
pushed segment when it is text. -/
def textCons (plain : List Char) (segs : List Seg) : List Seg :=
  match segs with
  | .text s :: rest => .text (String.mk plain ++ s) :: rest
  | _ => .text (String.mk plain) :: segs

/-- Turn a container tag and its parsed children into a segment. -/
def buildSeg (children : List Seg) : RecTag → Seg
  | .bold => .bold children
  | .italic => .italic children
  | .strike => .strike children
  | .spoiler => .spoiler children
  | .link url => .linkSegs children url

/-- Turn a leaf payload into a segment. -/
def buildLeaf : LeafOut → Seg
  | .userLink content username => .userLink content username
  | .image content url => .image content url
  | .linkStr content url => .linkStr content url
  | .inlineCode content => .inlineCode content

/-- Fuelled embedding of the `parseInline` loop: while text remains, take
the first matching rule (recursing into container content with the same
fuel) or fall back to accumulating plain text.  One fuel unit is spent per
iteration; `parseInline` supplies enough fuel for the loop to run to
completion, which `parseInlineF_fuel_irrelevant` below justifies. -/
def parseInlineF : Nat → List Char → List Seg
  | 0, _ => []
  | _ + 1, [] => []
  | fuel + 1, c :: rest =>
    match matchInline (c :: rest) with
    | some (.leaf s, after) => buildLeaf s :: parseInlineF fuel after
    | some (.recur tag content, after) =>
        buildSeg (parseInlineF fuel content) tag :: parseInlineF fuel after
    | none =>
        textCons ((c :: rest).take (fallbackLen (c :: rest)))
          (parseInlineF fuel ((c :: rest).drop (fallbackLen (c :: rest))))

/-- The `parseInline` of the source. -/
def parseInline (l : List Char) : List Seg :=
  parseInlineF (l.length + 1) l

/-- Whitespace trim of both ends, as `String.prototype.trim` (restricted to
the ASCII whitespace the claims involve). -/
def trimWs (l : List Char) : List Char :=
  ((l.dropWhile isWs).reverse.dropWhile isWs).reverse

/-- The `loneFormatterRules` table: a trimmed line wholly wrapped in one
emphasis marker; returns the inner content of the first rule that matches.
The rules, in source order: double-asterisk bold, double-underscore bold,
single-asterisk italic, single-underscore italic, double-tilde strike. -/
def loneFormatter (line : List Char) : Option (List Char) :=
  let t := trimWs line
  match (eatP "**".data t).bind (lazyEnd1 "**".data) with
  | some m => some m
  | none =>
  match (eatP "__".data t).bind (lazyEnd1 "__".data) with
  | some m => some m
  | none =>
  match (eatP "*".data t).bind (lazyEnd1 "*".data) with
  | some m => some m
  | none =>
  match (eatP "_".data t).bind (lazyEnd1 "_".data) with
  | some m => some m
  | none => (eatP "~~".data t).bind (lazyEnd1 "~~".data)

/-- Line-start rule `^#<center>(.*)`: the rest of the line is parsed
inline and wrapped in a center segment. -/
def centerRule (line : List Char) : Option Seg :=
  match eatP "#<center>".data line with
  | some r => some (.center (parseInline (r.takeWhile (fun c => !isNl c))))
  | none => none

/-- Line-start rule `^(#{1,5})\s+(.*)`: one to five hash marks, at least
one whitespace, then the heading text, parsed inline; the level is the
number of hash marks.  Six or more hash marks never match (the greedy
quantifier backtracks onto another hash mark, which is not whitespace). -/
def headingRule (line : List Char) : Option Seg :=
  let hashes := line.takeWhile (fun c => c = '#')
  let rest1 := line.dropWhile (fun c => c = '#')
  if 1 ≤ hashes.length ∧ hashes.length ≤ 5 then
    match rest1 with
    | c :: _ =>
        if isWs c then
          some (.heading
            (parseInline ((rest1.dropWhile isWs).takeWhile (fun d => !isNl d)))
            hashes.length)
        else none
    | [] => none
  else none

/-- Line-start rule `^>\s?(.*)`: a blockquote marker, at most one
whitespace, then the quoted text parsed inline. -/
def blockquoteRule (line : List Char) : Option Seg :=
  match line with
  | [] => none
  | c :: rest =>
      if c = '>' then
        let rest1 :=
          match rest with
          | d :: cs => if isWs d then cs else rest
          | [] => []
        some (.blockquote (parseInline (rest1.takeWhile (fun d => !isNl d))))
      else none

/-- Line-start rule `^---\s*$`: exactly three dashes followed by nothing
but whitespace. -/
def hrRule (line : List Char) : Option Seg :=
  match eatP "---".data line with
  | some r => if r.dropWhile isWs = [] then some .hr else none
  | none => none

/-- The `lineStartRules` table in source order: centered heading, heading,
blockquote, horizontal rule. -/
def lineStartSeg (line : List Char) : Option Seg :=
  match centerRule line with
  | some s => some s
  | none =>
  match headingRule line with
  | some s => some s
  | none =>
  match blockquoteRule line with
  | some s => some s
  | none => hrRule line

/-- Segments produced for one line of a plain-text block: the
lone-formatter pre-check (which renders as a centered region), then the
line-start rules, then the inline engine; an empty line yields nothing
(the source skips both rule tables and the inline call on it). -/
def lineSegs (line : List Char) : List Seg :=
  if line = [] then []
  else
    match loneFormatter line with
    | some inner => [.center (parseInline inner)]
    | none =>
      match lineStartSeg line with
      | some s => [s]
      | none => parseInline line

/-- All lines of a plain-text block, with an explicit break segment after
every line but the last. -/
def processLines : List (List Char) → List Seg
  | [] => []
  | [line] => lineSegs line
  | line :: rest => lineSegs line ++ [Seg.br] ++ processLines rest

/-- Split on newline characters, as `String.prototype.split` with a
one-character separator. -/
def splitNl : List Char → List (List Char)
  | [] => [[]]
  | c :: r =>
      match splitNl r with
      | [] => [[c]]
      | h :: t => if c = '\n' then [] :: h :: t else (c :: h) :: t

/-- One block produced by the multiline scan: a plain-text chunk or one of
the three fenced constructs. -/
inductive Block : Type where
  | textB (content : List Char)
  | codeB (content : List Char)
  | centerB (content : List Char)
  | spoilerB (content : List Char)

/-- The three alternatives of the multiline regex, tried in order at a line
start: triple-backtick code fence, triple-tilde center fence, spoiler
markers; each captures its content lazily. -/
def tryBlockMatch (l : List Char) : Option (Block × List Char) :=
  match (eatP "```".data l).bind (lazySplit "```".data) with
  | some p => some (.codeB p.1, p.2)
  | none =>
  match (eatP "~~~".data l).bind (lazySplit "~~~".data) with
  | some p => some (.centerB p.1, p.2)
  | none =>
  match (eatP "~!".data l).bind (lazySplit "!~".data) with
  | some p => some (.spoilerB p.1, p.2)
  | none => none

/-- Fuelled scan of the multiline regex with the global and multiline
flags: positions are visited left to right; at each line start the three
alternatives are tried in order; the text between matches accumulates into
plain-text chunks (`acc` holds the current chunk reversed).  A fence match
never ends in a line terminator, so scanning resumes mid-line. -/
def sbGo : Nat → List Char → List Char → Bool → List Block
  | 0, _, acc, _ => if acc = [] then [] else [.textB acc.reverse]
  | _ + 1, [], acc, _ => if acc = [] then [] else [.textB acc.reverse]
  | fuel + 1, c :: rest, acc, atStart =>
      if atStart then
        match tryBlockMatch (c :: rest) with
        | some (blk, after) =>
            (if acc = [] then [] else [.textB acc.reverse]) ++
              blk :: sbGo fuel after [] false
        | none => sbGo fuel rest (c :: acc) (isNl c)
      else sbGo fuel rest (c :: acc) (isNl c)

/-- The block-splitting pass of `parseComment` over the cleaned text. -/
def splitBlocks (l : List Char) : List Block :=
  sbGo (l.length + 1) l [] true

/-- Value of a decimal digit run, as `parseInt` on it (exact; a value
beyond the double-precision range is in any case far above the code-point
bound the decoder checks). -/
def digitsToNat (ds : List Char) : Nat :=
  ds.foldl (fun a c => a * 10 + (c.toNat - 48)) 0

/-- Scanner for the tail of a numeric character reference `&#(\d+);`,
after the ampersand: the hash mark, a nonempty digit run, the semicolon. -/
def parseNumRef (l : List Char) : Option (Nat × List Char) :=
  match l with
  | [] => none
  | c :: rest =>
      if c = '#' then
        let ds := rest.takeWhile Char.isDigit
        if ds.isEmpty then none
        else
          match rest.dropWhile Char.isDigit with
          | [] => none
          | d :: after => if d = ';' then some (digitsToNat ds, after) else none
      else none

/-- Fuelled embedding of the numeric-reference replacement inside
`decodeHtmlEntities`: every `&#d;` is replaced by `String.fromCodePoint(d)`,
which throws a `RangeError` — modelled as `none` — when `d` exceeds the
maximum code point 1114111; anything else is copied verbatim.  (For a
surrogate value JavaScript builds a lone surrogate code unit, which `Char`
cannot represent; `Char.ofNat` maps it to the null character.  No claim
involves surrogates.)  The source's remaining three `replace` calls
substitute the characters ampersand, less-than and greater-than by
themselves and are omitted as identities. -/
def decodeF : Nat → List Char → Option (List Char)
  | 0, _ => some []
  | _ + 1, [] => some []
  | fuel + 1, c :: rest =>
      if c = '&' then
        match parseNumRef rest with
        | some (n, after) =>
            if n ≤ 1114111 then
              match decodeF fuel after with
              | some d => some (Char.ofNat n :: d)
              | none => none
            else none
        | none =>
            match decodeF fuel rest with
            | some d => some ('&' :: d)
            | none => none
      else
        match decodeF fuel rest with
        | some d => some (c :: d)
        | none => none

/-- The `text.replace(/<br>/g, '\n')` preprocessing of `parseComment`. -/
def replaceBr : List Char → List Char
  | '<' :: 'b' :: 'r' :: '>' :: rest => '\n' :: replaceBr rest
  | c :: rest => c :: replaceBr rest
  | [] => []

/-- The `decodeHtmlEntities` of the source (on character lists), including
its short-circuit on empty input; `none` models the `RangeError` thrown by
`String.fromCodePoint` on an out-of-range reference. -/
def decodeHtmlEntities (l : List Char) : Option (List Char) :=
  decodeF (l.length + 1) l

/-- Process the split blocks: a code block is emitted verbatim, a center or
spoiler block has its content re-submitted to the full parser (`f`), a
plain-text chunk goes through the line engines.  A failure of a recursive
parse propagates, as the JavaScript exception would. -/
def processBlocksWith (f : List Char → Except Unit (List Seg)) :
    List Block → Except Unit (List Seg)
  | [] => .ok []
  | .textB s :: rest =>
      match processBlocksWith f rest with
      | .ok segs => .ok (processLines (splitNl s) ++ segs)
      | .error e => .error e
  | .codeB s :: rest =>
      match processBlocksWith f rest with
      | .ok segs => .ok (Seg.codeBlock (String.mk s) :: segs)
      | .error e => .error e
  | .centerB s :: rest =>
      match f s with
      | .ok inner =>
          match processBlocksWith f rest with
          | .ok segs => .ok (Seg.center inner :: segs)
          | .error e => .error e
      | .error e => .error e
  | .spoilerB s :: rest =>
      match f s with
      | .ok inner =>
          match processBlocksWith f rest with
          | .ok segs => .ok (Seg.spoiler inner :: segs)
          | .error e => .error e
      | .error e => .error e

/-- Fuelled embedding of `parseComment`: replace break tags, decode
entities (an exception aborts the whole parse), split into blocks and
process them, re-entering the parser on center and spoiler block content
with one fuel unit less.  Recursive contents are strictly shorter than the
text, so the fuel supplied by `parseComment` never runs out. -/
def parseCommentF : Nat → List Char → Except Unit (List Seg)
  | 0, _ => .ok []
  | fuel + 1, text =>
      match decodeHtmlEntities (replaceBr text) with
      | none => .error ()
      | some cleaned => processBlocksWith (parseCommentF fuel) (splitBlocks cleaned)

/-- The `parseComment` of the source: `Except.ok` with the segment list on
normal return, `Except.error` when the underlying JavaScript would throw. -/
def parseComment (s : String) : Except Unit (List Seg) :=
  parseCommentF (s.data.length + 1) s.data

/-! ### Claims about the entity decoder and concrete parses -/

/-- Fuelled scan mirroring `decodeF` that reports whether the text contains
a numeric character reference whose value exceeds the maximum code point —
the condition under which `String.fromCodePoint` throws. -/
def hasBadRefF : Nat → List Char → Bool
  | 0, _ => false
  | _ + 1, [] => false
  | fuel + 1, c :: rest =>
      if c = '&' then
        match parseNumRef rest with
        | some (n, after) =>
            if n ≤ 1114111 then hasBadRefF fuel after else true
        | none => hasBadRefF fuel rest
      else hasBadRefF fuel rest

/-- Whether the text contains an out-of-range numeric character
reference. -/
def hasBadRef (l : List Char) : Bool :=
  hasBadRefF (l.length + 1) l

/-- The decoder fails exactly on texts with an out-of-range numeric
reference, at every fuel. -/
theorem decodeF_none_iff (fuel : Nat) :
    ∀ l : List Char, decodeF fuel l = none ↔ hasBadRefF fuel l = true := by
  induction fuel with
  | zero => intro l; simp [decodeF, hasBadRefF]
  | succ fuel ih =>
    intro l
    match l with
    | [] => simp [decodeF, hasBadRefF]
    | c :: rest =>
      by_cases hc : c = '&'
      · simp only [decodeF, hasBadRefF, if_pos hc]
        cases hpn : parseNumRef rest with
        | none =>
          simp only [hpn]
          rw [← ih rest]
          cases hd : decodeF fuel rest <;> simp [hd]
        | some p =>
          obtain ⟨n, after⟩ := p
          simp only [hpn]
          by_cases hn : n ≤ 1114111
          · simp only [if_pos hn]
            rw [← ih after]
            cases hd : decodeF fuel after <;> simp [hd]
          · simp [if_neg hn]
      · simp only [decodeF, hasBadRefF, if_neg hc]
        rw [← ih rest]
        cases hd : decodeF fuel rest <;> simp [hd]

/-- C1 (counterexample): the numeric reference `&#1114112;` is one past the
maximum code point, so `String.fromCodePoint` throws a `RangeError` inside
`decodeHtmlEntities` and `parseComment` does not return a segment list. -/
theorem claim_C1_counterexample :
    parseComment "&#1114112;" = Except.error () := rfl

/-- C1 (amended): `decodeHtmlEntities` fails exactly on a numeric character
reference whose value exceeds the maximum code point; a syntactically
malformed reference (missing digits or semicolon) is left as literal text
and parsing returns a segment list, but an out-of-range reference makes
`parseComment` throw. -/
theorem claim_C1_decode_totality :
    (∀ l : List Char, decodeHtmlEntities l = none ↔ hasBadRef l = true) ∧
    parseComment "&#x; &#12 &#;" = Except.ok [Seg.text "&#x; &#12 &#;"] :=
  ⟨fun l => decodeF_none_iff (l.length + 1) l, rfl⟩

/-- C2 (counterexample): parsing `**[a](http://x)**` does not produce a
top-level bold segment containing a link with parsed children. -/
theorem claim_C2_counterexample :
    parseComment "**[a](http://x)**" ≠
      Except.ok [Seg.bold [Seg.linkSegs [Seg.text "a"] "http://x"]] := by
  intro h
  rw [show parseComment "**[a](http://x)**" =
    Except.ok [Seg.center [Seg.linkStr "a" "http://x"]] from rfl] at h
  simp at h

/-- C2 (amended): the lone-formatter pre-check fires on a line wholly
wrapped in bold markers, so parsing `**[a](http://x)**` yields exactly one
top-level center segment whose children are one link segment with url
`http://x` whose displayed content is the raw string `a` (the markdown link
rule stores its text unparsed). -/
theorem claim_C2_lone_bold_link :
    parseComment "**[a](http://x)**" =
      Except.ok [Seg.center [Seg.linkStr "a" "http://x"]] := rfl

/-! ### Plain text without markup triggers (claim C5)

A character is a markup trigger when, after lowercasing (the HTML tag rules
are case-insensitive), it can begin a token of any inline rule, of the
combined next-special-character scan, of a line-start or lone-formatter
rule, of a multiline fence, of the break-tag replacement or of a numeric
character reference. -/

/-- Conservative markup-trigger test: the leading characters of every
construct the parser reacts to. -/
def isTriggerChar (c : Char) : Bool :=
  c.toLower = '@' || c.toLower = '[' || c.toLower = '!' || c.toLower = '~' ||
  c.toLower = btick || c.toLower = '*' || c.toLower = '_' ||
  c.toLower = '<' || c.toLower = '#' || c.toLower = '>' || c.toLower = '-' ||
  c.toLower = '&' || c.toLower = 'h' || c.toLower = 'i' || c.toLower = 'y' ||
  c.toLower = 'v' || c.toLower = '\n' || c.toLower = '\r'

/-- A character whose lowercase differs from a lowercase-fixed character
differs from it outright. -/
theorem ne_of_lower {c x : Char} (h : c.toLower ≠ x) (hx : x.toLower = x) :
    c ≠ x := fun he => h (by rw [he, hx])

/-- Consuming a nonempty exact prefix fails when the heads differ. -/
theorem eatP_cons_ne {p c : Char} (ps l : List Char) (h : c ≠ p) :
    eatP (p :: ps) (c :: l) = none := by simp [eatP, h]

/-- Consuming a nonempty case-insensitive prefix fails when the lowered
head differs. -/
theorem eatCI_cons_ne {p c : Char} (ps l : List Char) (h : c.toLower ≠ p) :
    eatCI (p :: ps) (c :: l) = none := by simp [eatCI, h]

/-- Bundle of head-character facts extracted from `isTriggerChar`. -/
theorem triggerChar_ne {c : Char} (hc : isTriggerChar c = false) :
    c ≠ '@' ∧ c ≠ '[' ∧ c ≠ '!' ∧ c ≠ '~' ∧ c ≠ btick ∧ c ≠ '*' ∧
    c ≠ '_' ∧ c ≠ '#' ∧ c ≠ '>' ∧ c ≠ '-' ∧ c ≠ '&' ∧ c ≠ '\n' ∧
    c ≠ '\r' ∧ c ≠ '<' ∧ c ≠ 'i' ∧ c ≠ 'y' ∧ c ≠ 'v' ∧ c ≠ 'h' ∧
    c.toLower ≠ '<' ∧ c.toLower ≠ '@' := by
  have h1 : c.toLower ≠ '@' := fun h => by simp [isTriggerChar, h] at hc
  have h2 : c.toLower ≠ '[' := fun h => by simp [isTriggerChar, h] at hc
  have h3 : c.toLower ≠ '!' := fun h => by simp [isTriggerChar, h] at hc
  have h4 : c.toLower ≠ '~' := fun h => by simp [isTriggerChar, h] at hc
  have h5 : c.toLower ≠ btick := fun h => by simp [isTriggerChar, h] at hc
  have h6 : c.toLower ≠ '*' := fun h => by simp [isTriggerChar, h] at hc
  have h7 : c.toLower ≠ '_' := fun h => by simp [isTriggerChar, h] at hc
  have h8 : c.toLower ≠ '<' := fun h => by simp [isTriggerChar, h] at hc
  have h9 : c.toLower ≠ '#' := fun h => by simp [isTriggerChar, h] at hc
  have h10 : c.toLower ≠ '>' := fun h => by simp [isTriggerChar, h] at hc
  have h11 : c.toLower ≠ '-' := fun h => by simp [isTriggerChar, h] at hc
  have h12 : c.toLower ≠ '&' := fun h => by simp [isTriggerChar, h] at hc
  have h13 : c.toLower ≠ 'h' := fun h => by simp [isTriggerChar, h] at hc
  have h14 : c.toLower ≠ 'i' := fun h => by simp [isTriggerChar, h] at hc
  have h15 : c.toLower ≠ 'y' := fun h => by simp [isTriggerChar, h] at hc
  have h16 : c.toLower ≠ 'v' := fun h => by simp [isTriggerChar, h] at hc
  have h17 : c.toLower ≠ '\n' := fun h => by simp [isTriggerChar, h] at hc
  have h18 : c.toLower ≠ '\r' := fun h => by simp [isTriggerChar, h] at hc
  exact ⟨ne_of_lower h1 rfl, ne_of_lower h2 rfl, ne_of_lower h3 rfl,
    ne_of_lower h4 rfl, ne_of_lower h5 rfl, ne_of_lower h6 rfl,
    ne_of_lower h7 rfl, ne_of_lower h9 rfl, ne_of_lower h10 rfl,
    ne_of_lower h11 rfl, ne_of_lower h12 rfl, ne_of_lower h17 rfl,
    ne_of_lower h18 rfl, ne_of_lower h8 rfl, ne_of_lower h14 rfl,
    ne_of_lower h15 rfl, ne_of_lower h16 rfl, ne_of_lower h13 rfl, h8, h1⟩

/-- No inline rule fires on a non-trigger head character. -/
theorem matchInline_none {c : Char} (rest : List Char)
    (hc : isTriggerChar c = false) : matchInline (c :: rest) = none := by
  obtain ⟨hAt, hLb, hBang, hTld, hBt, hStar, hUnd, hHash, hGt, hDash,
    hAmp, hNl, hCr, hLt, hI, hY, hV, hH, hLtL, hAtL⟩ := triggerChar_ne hc
  have m1 : matchUserLink (c :: rest) = none := by simp [matchUserLink, hAt]
  have m2 : matchAnchorImage (c :: rest) = none := by
    rw [matchAnchorImage, show "<a".data = ['<', 'a'] from rfl,
      eatCI_cons_ne _ _ hLtL]
    rfl
  have m3 : matchImgTag (c :: rest) = none := by
    rw [matchImgTag, show "<img".data = ['<', 'i', 'm', 'g'] from rfl,
      eatCI_cons_ne _ _ hLtL]
    rfl
  have m4 : matchBoldHtml (c :: rest) = none := by
    rw [matchBoldHtml, show "<b>".data = ['<', 'b', '>'] from rfl,
      eatCI_cons_ne _ _ hLtL]
    rfl
  have m5 : matchAnchorTag (c :: rest) = none := by
    rw [matchAnchorTag, show "<a".data = ['<', 'a'] from rfl,
      eatCI_cons_ne _ _ hLtL]
    rfl
  have m6 : matchImgEmbed (c :: rest) = none := by
    rw [matchImgEmbed, show "img".data = ['i', 'm', 'g'] from rfl,
      eatP_cons_ne _ _ hI]
    rfl
  have m7 : matchYoutube (c :: rest) = none := by
    rw [matchYoutube, show "youtube(".data =
      ['y', 'o', 'u', 't', 'u', 'b', 'e', '('] from rfl, eatP_cons_ne _ _ hY]
    rfl
  have m8 : matchVideo (c :: rest) = none := by
    rw [matchVideo, show "video(".data = ['v', 'i', 'd', 'e', 'o', '('] from rfl,
      eatP_cons_ne _ _ hV]
    rfl
  have m9 : matchMdLink (c :: rest) = none := by
    rw [matchMdLink, show "[".data = ['['] from rfl, eatP_cons_ne _ _ hLb]
    rfl
  have m10 : matchBoldMd (c :: rest) = none := by
    rw [matchBoldMd, show "**".data = ['*', '*'] from rfl,
      show "__".data = ['_', '_'] from rfl, eatP_cons_ne _ _ hStar,
      eatP_cons_ne _ _ hUnd]
    rfl
  have m11 : matchItalicMd (c :: rest) = none := by
    rw [matchItalicMd, show "*".data = ['*'] from rfl,
      show "_".data = ['_'] from rfl, eatP_cons_ne _ _ hStar,
      eatP_cons_ne _ _ hUnd]
    rfl
  have m12 : matchStrike (c :: rest) = none := by
    rw [matchStrike, show "~~".data = ['~', '~'] from rfl,
      eatP_cons_ne _ _ hTld]
    rfl
  have m13 : matchSpoilerA (c :: rest) = none := by
    rw [matchSpoilerA, show "!~".data = ['!', '~'] from rfl,
      eatP_cons_ne _ _ hBang]
    rfl
  have m14 : matchSpoilerB (c :: rest) = none := by
    rw [matchSpoilerB, show "~!".data = ['~', '!'] from rfl,
      eatP_cons_ne _ _ hTld]
    rfl
  have m15 : matchInlineCode (c :: rest) = none := by
    simp [matchInlineCode, hBt]
  have m16 : matchBareUrl (c :: rest) = none := by
    rw [matchBareUrl,
      show "https://".data = ['h', 't', 't', 'p', 's', ':', '/', '/'] from rfl,
      show "http://".data = ['h', 't', 't', 'p', ':', '/', '/'] from rfl,
      eatP_cons_ne _ _ hH, eatP_cons_ne _ _ hH]
  simp [matchInline, inlineRules, firstMatch, m1, m2, m3, m4, m5, m6, m7,
    m8, m9, m10, m11, m12, m13, m14, m15, m16]

/-- The combined token scan does not fire on a non-trigger head. -/
theorem tokenAt_false {c : Char} (rest : List Char)
    (hc : isTriggerChar c = false) : tokenAt (c :: rest) = false := by
  obtain ⟨hAt, hLb, hBang, hTld, hBt, hStar, hUnd, hHash, hGt, hDash,
    hAmp, hNl, hCr, hLt, hI, hY, hV, hH, hLtL, hAtL⟩ := triggerChar_ne hc
  unfold tokenAt
  rw [show "[".data = ['['] from rfl, show "!~".data = ['!', '~'] from rfl,
    show "~!".data = ['~', '!'] from rfl,
    show "http://".data = ['h', 't', 't', 'p', ':', '/', '/'] from rfl,
    show "https://".data = ['h', 't', 't', 'p', 's', ':', '/', '/'] from rfl,
    show "**".data = ['*', '*'] from rfl, show "*".data = ['*'] from rfl,
    show "__".data = ['_', '_'] from rfl, show "_".data = ['_'] from rfl,
    show "~~".data = ['~', '~'] from rfl,
    show "img(".data = ['i', 'm', 'g', '('] from rfl,
    show "youtube(".data = ['y', 'o', 'u', 't', 'u', 'b', 'e', '('] from rfl,
    show "video(".data = ['v', 'i', 'd', 'e', 'o', '('] from rfl,
    eatP_cons_ne _ _ hLb, eatP_cons_ne _ _ hBang, eatP_cons_ne _ _ hTld,
    eatP_cons_ne _ _ hH, eatP_cons_ne _ _ hH, eatP_cons_ne _ _ hBt,
    eatP_cons_ne _ _ hStar, eatP_cons_ne _ _ hStar, eatP_cons_ne _ _ hUnd,
    eatP_cons_ne _ _ hUnd, eatP_cons_ne _ _ hTld, eatP_cons_ne _ _ hI,
    eatP_cons_ne _ _ hY, eatP_cons_ne _ _ hV]
  cases rest with
  | nil => simp
  | cons d t => simp [hAt, hLt]

/-- The next-token search finds nothing in trigger-free text. -/
theorem nextTokenIdx_none :
    ∀ l : List Char, (∀ c ∈ l, isTriggerChar c = false) →
      nextTokenIdx l = none := by
  intro l
  induction l with
  | nil => intro _; rfl
  | cons c rest ih =>
      intro h
      have hc := h c (List.mem_cons_self ..)
      have hr : ∀ d ∈ rest, isTriggerChar d = false :=
        fun d hd => h d (List.mem_cons_of_mem _ hd)
      simp [nextTokenIdx, tokenAt_false rest hc, ih hr]

/-- `parseInlineF` has no work to do on empty text at any fuel. -/
theorem parseInlineF_nil (fuel : Nat) : parseInlineF fuel [] = [] := by
  cases fuel <;> rfl

/-- The inline engine turns nonempty trigger-free text into exactly one
text segment containing it verbatim, at any positive fuel. -/
theorem parseInlineF_triggerFree (fuel : Nat) (c : Char) (rest : List Char)
    (h : ∀ d ∈ c :: rest, isTriggerChar d = false) :
    parseInlineF (fuel + 1) (c :: rest) =
      [Seg.text (String.mk (c :: rest))] := by
  have hc := h c (List.mem_cons_self ..)
  rw [parseInlineF, matchInline_none rest hc]
  have hk : fallbackLen (c :: rest) = (c :: rest).length := by
    simp [fallbackLen, nextTokenIdx_none _ h]
  simp [hk, parseInlineF_nil, textCons]

/-- The `parseInline` of nonempty trigger-free text is one verbatim text
segment. -/
theorem parseInline_triggerFree (c : Char) (rest : List Char)
    (h : ∀ d ∈ c :: rest, isTriggerChar d = false) :
    parseInline (c :: rest) = [Seg.text (String.mk (c :: rest))] :=
  parseInlineF_triggerFree _ c rest h

/-- The break-tag replacement is the identity on text without a
less-than character. -/
theorem replaceBr_id :
    ∀ l : List Char, (∀ c ∈ l, c ≠ '<') → replaceBr l = l := by
  intro l
  induction l with
  | nil => intro _; rfl
  | cons c rest ih =>
      intro h
      have hc : c ≠ '<' := h c (List.mem_cons_self ..)
      have hcons : replaceBr (c :: rest) = c :: replaceBr rest := by
        rw [replaceBr.eq_def]
        split
        · next heq => injection heq with h1 _; exact absurd h1 hc
        · next heq => injection heq with h1 h2; rw [h1, h2]
        · next heq => exact List.noConfusion heq
      rw [hcons, ih fun d hd => h d (List.mem_cons_of_mem _ hd)]

/-- The decoder is the identity on text without an ampersand, given
sufficient fuel. -/
theorem decodeF_id :
    ∀ (fuel : Nat) (l : List Char), l.length < fuel →
      (∀ c ∈ l, c ≠ '&') → decodeF fuel l = some l := by
  intro fuel
  induction fuel with
  | zero => intro l hl _; omega
  | succ fuel ih =>
      intro l hl h
      match l with
      | [] => rfl
      | c :: rest =>
          have hc : c ≠ '&' := h c (List.mem_cons_self ..)
          have := ih rest (by simpa using Nat.lt_of_succ_lt_succ hl)
            (fun d hd => h d (List.mem_cons_of_mem _ hd))
          simp [decodeF, hc, this]

/-- No multiline fence opens on a non-trigger head. -/
theorem tryBlockMatch_none {c : Char} (rest : List Char)
    (hc : isTriggerChar c = false) : tryBlockMatch (c :: rest) = none := by
  obtain ⟨hAt, hLb, hBang, hTld, hBt, hStar, hUnd, hHash, hGt, hDash,
    hAmp, hNl, hCr, hLt, hI, hY, hV, hH, hLtL, hAtL⟩ := triggerChar_ne hc
  rw [tryBlockMatch, show "```".data = [btick, btick, btick] from rfl,
    show "~~~".data = ['~', '~', '~'] from rfl,
    show "~!".data = ['~', '!'] from rfl,
    eatP_cons_ne _ _ hBt, eatP_cons_ne _ _ hTld, eatP_cons_ne _ _ hTld]
  rfl

/-- The block scan over trigger-free text accumulates everything into a
single plain-text chunk (prefixed by whatever is already accumulated). -/
theorem sbGo_triggerFree :
    ∀ (fuel : Nat) (l acc : List Char) (st : Bool), l.length < fuel →
      (∀ c ∈ l, isTriggerChar c = false) →
      sbGo fuel l acc st =
        if acc.reverse ++ l = [] then []
        else [Block.textB (acc.reverse ++ l)] := by
  intro fuel
  induction fuel with
  | zero => intro l acc st hl _; omega
  | succ fuel ih =>
      intro l acc st hl h
      match l with
      | [] =>
          simp only [sbGo, List.append_nil]
          by_cases ha : acc = [] <;> simp [ha]
      | c :: rest =>
          have hc := h c (List.mem_cons_self ..)
          have hr : ∀ d ∈ rest, isTriggerChar d = false :=
            fun d hd => h d (List.mem_cons_of_mem _ hd)
          have hrec := ih rest (c :: acc) (isNl c)
            (by simpa using Nat.lt_of_succ_lt_succ hl) hr
          have heq : (c :: acc).reverse ++ rest = acc.reverse ++ c :: rest := by
            simp
          rw [heq] at hrec
          cases st with
          | true => rw [sbGo, tryBlockMatch_none rest hc]; simpa using hrec
          | false => rw [sbGo]; simpa using hrec

/-- Splitting trigger-free nonempty text yields one plain-text block. -/
theorem splitBlocks_triggerFree (c : Char) (rest : List Char)
    (h : ∀ d ∈ c :: rest, isTriggerChar d = false) :
    splitBlocks (c :: rest) = [Block.textB (c :: rest)] := by
  rw [splitBlocks, sbGo_triggerFree _ _ _ _ (by simp) h]
  simp

/-- Splitting on newlines leaves newline-free text as one line. -/
theorem splitNl_noNl :
    ∀ l : List Char, (∀ c ∈ l, c ≠ '\n') → splitNl l = [l] := by
  intro l
  induction l with
  | nil => intro _; rfl
  | cons c rest ih =>
      intro h
      have hc : c ≠ '\n' := h c (List.mem_cons_self ..)
      rw [splitNl, ih fun d hd => h d (List.mem_cons_of_mem _ hd)]
      simp [hc]

/-- Trimming keeps only characters of the original line. -/
theorem mem_trimWs {c : Char} {l : List Char} (h : c ∈ trimWs l) : c ∈ l := by
  unfold trimWs at h
  rw [List.mem_reverse] at h
  have h2 := (List.dropWhile_sublist _).subset h
  rw [List.mem_reverse] at h2
  exact (List.dropWhile_sublist _).subset h2

/-- The lone-formatter pre-check fails on a trigger-free line. -/
theorem loneFormatter_triggerFree (line : List Char)
    (h : ∀ c ∈ line, isTriggerChar c = false) :
    loneFormatter line = none := by
  rw [loneFormatter, show "**".data = ['*', '*'] from rfl,
    show "__".data = ['_', '_'] from rfl, show "*".data = ['*'] from rfl,
    show "_".data = ['_'] from rfl, show "~~".data = ['~', '~'] from rfl]
  match ht : trimWs line with
  | [] => rfl
  | d :: t =>
      have hd : isTriggerChar d = false :=
        h d (mem_trimWs (ht ▸ List.mem_cons_self ..))
      obtain ⟨hAt, hLb, hBang, hTld, hBt, hStar, hUnd, hHash, hGt, hDash,
        hAmp, hNl, hCr, hLt, hI, hY, hV, hH, hLtL, hAtL⟩ := triggerChar_ne hd
      rw [eatP_cons_ne _ _ hStar, eatP_cons_ne _ _ hUnd,
        eatP_cons_ne _ _ hStar, eatP_cons_ne _ _ hUnd,
        eatP_cons_ne _ _ hTld]
      rfl

/-- The line-start rules fail on a trigger-free nonempty line. -/
theorem lineStartSeg_triggerFree (c : Char) (rest : List Char)
    (h : ∀ d ∈ c :: rest, isTriggerChar d = false) :
    lineStartSeg (c :: rest) = none := by
  obtain ⟨hAt, hLb, hBang, hTld, hBt, hStar, hUnd, hHash, hGt, hDash,
    hAmp, hNl, hCr, hLt, hI, hY, hV, hH, hLtL, hAtL⟩ :=
    triggerChar_ne (h c (List.mem_cons_self ..))
  have r1 : centerRule (c :: rest) = none := by
    rw [centerRule, show "#<center>".data =
      ['#', '<', 'c', 'e', 'n', 't', 'e', 'r', '>'] from rfl,
      eatP_cons_ne _ _ hHash]
  have r2 : headingRule (c :: rest) = none := by
    rw [headingRule]
    simp [List.takeWhile_cons, hHash]
  have r3 : blockquoteRule (c :: rest) = none := by
    simp [blockquoteRule, hGt]
  have r4 : hrRule (c :: rest) = none := by
    rw [hrRule, show "---".data = ['-', '-', '-'] from rfl,
      eatP_cons_ne _ _ hDash]
  simp [lineStartSeg, r1, r2, r3, r4]

/-- A trigger-free nonempty line passes untouched through the line
engines into one text segment. -/
theorem lineSegs_triggerFree (c : Char) (rest : List Char)
    (h : ∀ d ∈ c :: rest, isTriggerChar d = false) :
    lineSegs (c :: rest) = [Seg.text (String.mk (c :: rest))] := by
  rw [lineSegs, if_neg (by simp), loneFormatter_triggerFree _ h,
    lineStartSeg_triggerFree c rest h]
  exact parseInline_triggerFree c rest h

/-- C5 (amended): parsing a nonempty string without markup trigger
characters yields exactly one text segment whose content is the whole
string.  (The empty string parses to the empty segment list, see the
counterexample.) -/
theorem claim_C5_plain_text (s : String) (hne : s.data ≠ [])
    (h : ∀ c ∈ s.data, isTriggerChar c = false) :
    parseComment s = Except.ok [Seg.text s] := by
  match hd : s.data with
  | [] => exact absurd hd hne
  | c :: rest =>
      have h' : ∀ d ∈ c :: rest, isTriggerChar d = false := hd ▸ h
      have hlt : ∀ d ∈ c :: rest, d ≠ '<' :=
        fun d hdm => (triggerChar_ne (h' d hdm)).2.2.2.2.2.2.2.2.2.2.2.2.2.1
      have hamp : ∀ d ∈ c :: rest, d ≠ '&' :=
        fun d hdm => (triggerChar_ne (h' d hdm)).2.2.2.2.2.2.2.2.2.2.1
      have hnl : ∀ d ∈ c :: rest, d ≠ '\n' :=
        fun d hdm => (triggerChar_ne (h' d hdm)).2.2.2.2.2.2.2.2.2.2.2.1
      have hmk : String.mk (c :: rest) = s := by rw [← hd]
      simp only [parseComment, hd, parseCommentF, replaceBr_id _ hlt,
        decodeHtmlEntities, decodeF_id _ _ (Nat.lt_succ_self _) hamp,
        splitBlocks_triggerFree c rest h', processBlocksWith,
        splitNl_noNl _ hnl, processLines, lineSegs_triggerFree c rest h',
        List.append_nil, hmk]

/-- Witness for C5 at the concrete trigger-free string. -/
theorem claim_C5_plain_text_witness :
    parseComment "cat dog." = Except.ok [Seg.text "cat dog."] :=
  claim_C5_plain_text "cat dog." (by decide) (by decide)

/-- C5 (counterexample): the empty string parses to the empty segment
list, not to one empty text segment. -/
theorem claim_C5_counterexample :
    parseComment "" ≠ Except.ok [Seg.text ""] := by
  intro h
  rw [show parseComment "" = Except.ok [] from rfl] at h
  simp at h

/-! ### Progress and termination of the inline engine (claim C6) -/

/-- A successful exact-prefix consumption decomposes the input. -/
theorem eatP_some :
    ∀ (pat l r : List Char), eatP pat l = some r → l = pat ++ r := by
  intro pat
  induction pat with
  | nil => intro l r h; simp [eatP] at h; simp [h]
  | cons p ps ih =>
      intro l r h
      match l with
      | [] => simp [eatP] at h
      | c :: cs =>
          rw [eatP] at h
          split at h
          · next hc => rw [hc, List.cons_append, ← ih cs r h]
          · exact absurd h (by simp)

/-- A successful case-insensitive consumption fixes the lengths. -/
theorem eatCI_some_length :
    ∀ (pat l r : List Char), eatCI pat l = some r →
      l.length = pat.length + r.length := by
  intro pat
  induction pat with
  | nil => intro l r h; simp [eatCI] at h; simp [h]
  | cons p ps ih =>
      intro l r h
      match l with
      | [] => simp [eatCI] at h
      | c :: cs =>
          rw [eatCI] at h
          split at h
          · have := ih cs r h
            simp [this]
            omega
          · exact absurd h (by simp)

/-- A successful lazy split decomposes the input around the closer. -/
theorem lazySplit_some (closer : List Char) :
    ∀ (l a b : List Char), lazySplit closer l = some (a, b) →
      l = a ++ closer ++ b := by
  intro l
  induction l with
  | nil =>
      intro a b h
      rw [lazySplit] at h
      split at h
      · next hcl =>
          simp only [Option.some.injEq, Prod.mk.injEq] at h
          obtain ⟨ha, hb⟩ := h
          simp [← ha, ← hb, List.isEmpty_iff.mp hcl]
      · exact absurd h (by simp)
  | cons c rest ih =>
      intro a b h
      rw [lazySplit] at h
      split at h
      · next hpre =>
          simp only [Option.some.injEq, Prod.mk.injEq] at h
          obtain ⟨ha, hb⟩ := h
          obtain ⟨t, ht⟩ := List.isPrefixOf_iff_prefix.mp hpre
          rw [← ha, ← hb, ← ht, List.nil_append, List.drop_left]
      · split at h
        · next a' b' heq =>
            simp only [Option.some.injEq, Prod.mk.injEq] at h
            obtain ⟨ha, hb⟩ := h
            subst ha; subst hb
            simp [ih _ _ heq]
        · exact absurd h (by simp)

/-- A successful nonempty lazy split decomposes the input and has nonempty
content. -/
theorem lazySplit1_some (closer : List Char) (l a b : List Char)
    (h : lazySplit1 closer l = some (a, b)) :
    l = a ++ closer ++ b ∧ a ≠ [] := by
  match l with
  | [] => simp [lazySplit1] at h
  | c :: rest =>
      rw [lazySplit1] at h
      split at h
      · next a' b' heq =>
          simp only [Option.some.injEq, Prod.mk.injEq] at h
          obtain ⟨ha, hb⟩ := h
          subst ha; subst hb
          exact ⟨by simp [lazySplit_some closer rest a' b' heq], by simp⟩
      · exact absurd h (by simp)

/-- A successful case-insensitive lazy split fixes the lengths. -/
theorem lazySplitCI_some_length (closer : List Char) :
    ∀ (l a b : List Char), lazySplitCI closer l = some (a, b) →
      l.length = a.length + closer.length + b.length := by
  intro l
  induction l with
  | nil =>
      intro a b h
      rw [lazySplitCI] at h
      split at h
      · next r hr =>
          simp only [Option.some.injEq, Prod.mk.injEq] at h
          obtain ⟨ha, hb⟩ := h
          subst ha; subst hb
          have := eatCI_some_length closer [] r hr
          simp at this ⊢
          omega
      · exact absurd h (by simp)
  | cons c rest ih =>
      intro a b h
      rw [lazySplitCI] at h
      split at h
      · next r hr =>
          simp only [Option.some.injEq, Prod.mk.injEq] at h
          obtain ⟨ha, hb⟩ := h
          subst ha; subst hb
          have := eatCI_some_length closer (c :: rest) r hr
          simp at this ⊢
          omega
      · split at h
        · next a' b' heq =>
            simp only [Option.some.injEq, Prod.mk.injEq] at h
            obtain ⟨ha, hb⟩ := h
            subst ha; subst hb
            have := ih a' b' heq
            simp [this]
            omega
        · exact absurd h (by simp)

/-- A successful parenthesis scan decomposes the input. -/
theorem scanParen_some :
    ∀ (l a b : List Char), scanParen l = some (a, b) →
      l = a ++ ')' :: b := by
  intro l
  induction l with
  | nil => intro a b h; simp [scanParen] at h
  | cons c rest ih =>
      intro a b h
      rw [scanParen] at h
      split at h
      · next hc =>
          simp only [Option.some.injEq, Prod.mk.injEq] at h
          obtain ⟨ha, hb⟩ := h
          simp [← ha, ← hb, hc]
      · split at h
        · exact absurd h (by simp)
        · split at h
          · next a' b' heq =>
              simp only [Option.some.injEq, Prod.mk.injEq] at h
              obtain ⟨ha, hb⟩ := h
              subst ha; subst hb
              simp [ih _ _ heq]
          · exact absurd h (by simp)

/-- Consuming mandatory whitespace strictly shrinks the input. -/
theorem eatWs1_some (l r : List Char) (h : eatWs1 l = some r) :
    r.length < l.length := by
  match l with
  | [] => simp [eatWs1] at h
  | c :: rest =>
      rw [eatWs1] at h
      split at h
      · simp only [Option.some.injEq] at h
        rw [← h]
        have := (List.dropWhile_sublist (l := rest) (p := isWs)).length_le
        simp only [List.length_cons]
        omega
      · exact absurd h (by simp)

/-- The take-while and drop-while parts of a list partition its length. -/
theorem takeDrop_length (P : Char → Bool) (l : List Char) :
    (l.takeWhile P).length + (l.dropWhile P).length = l.length := by
  rw [← List.length_append, List.takeWhile_append_dropWhile]

/-- Consuming a quoted attribute value strictly shrinks the input. -/
theorem eatAttrValue_some (l : List Char) (p : List Char × List Char)
    (h : eatAttrValue l = some p) : p.2.length < l.length := by
  rw [eatAttrValue] at h
  split at h
  · exact absurd h (by simp)
  · split at h
    · next q r hdrop =>
        simp only [Option.some.injEq] at h
        have hsnd : p.2 = r := by rw [← h]
        have hlen := takeDrop_length notQuote l
        rw [hdrop] at hlen
        simp only [List.length_cons] at hlen
        rw [hsnd]
        omega
    · exact absurd h (by simp)

/-- Skipping to a closing angle bracket strictly shrinks the input. -/
theorem eatToGt_some (l r : List Char) (h : eatToGt l = some r) :
    r.length < l.length := by
  rw [eatToGt] at h
  split at h
  · next g r' hdrop =>
      simp only [Option.some.injEq] at h
      subst h
      have hlen := takeDrop_length notGt l
      rw [hdrop] at hlen
      simp only [List.length_cons] at hlen
      omega
  · exact absurd h (by simp)

/-- Progress contract of one inline-rule match on input `l`: the remaining
text is strictly shorter, and so is any content a container rule recurses
into. -/
def ruleProgress (l : List Char) (out : RuleOut) (rest : List Char) : Prop :=
  rest.length < l.length ∧
    ∀ tag content, out = RuleOut.recur tag content → content.length < l.length

/-- A leaf output satisfies the contract once the rest is shorter. -/
theorem ruleProgress_leaf {l rest : List Char} (s : LeafOut)
    (h : rest.length < l.length) : ruleProgress l (.leaf s) rest :=
  ⟨h, fun _ _ hcon => RuleOut.noConfusion hcon⟩

/-- A container output satisfies the contract once rest and content are
shorter. -/
theorem ruleProgress_recur {l rest : List Char} (t : RecTag) (c : List Char)
    (h1 : rest.length < l.length) (h2 : c.length < l.length) :
    ruleProgress l (.recur t c) rest := by
  refine ⟨h1, fun tag content hcon => ?_⟩
  injection hcon with _ hc
  exact hc ▸ h2

/-- Nonempty exact prefixes strictly shrink the input. -/
theorem eatP_some_lt {pat l r : List Char} (hne : pat ≠ [])
    (h : eatP pat l = some r) : r.length < l.length := by
  have hd := congrArg List.length (eatP_some pat l r h)
  have hp := List.length_pos.mpr hne
  simp only [List.length_append] at hd
  omega

/-- Nonempty case-insensitive prefixes strictly shrink the input. -/
theorem eatCI_some_lt {pat l r : List Char} (hne : pat ≠ [])
    (h : eatCI pat l = some r) : r.length < l.length := by
  have hd := eatCI_some_length pat l r h
  have hp := List.length_pos.mpr hne
  omega

/-- A lazy split with nonempty closer leaves both parts strictly
shorter. -/
theorem lazySplit_lt {closer l a b : List Char} (hcl : closer ≠ [])
    (h : lazySplit closer l = some (a, b)) :
    a.length < l.length ∧ b.length < l.length := by
  have hd := congrArg List.length (lazySplit_some closer l a b h)
  have hp := List.length_pos.mpr hcl
  simp only [List.length_append] at hd
  omega

/-- A nonempty lazy split with nonempty closer leaves both parts strictly
shorter. -/
theorem lazySplit1_lt {closer l a b : List Char} (hcl : closer ≠ [])
    (h : lazySplit1 closer l = some (a, b)) :
    a.length < l.length ∧ b.length < l.length := by
  obtain ⟨hdec, hne⟩ := lazySplit1_some closer l a b h
  have hd := congrArg List.length hdec
  have hp := List.length_pos.mpr hcl
  have ha := List.length_pos.mpr hne
  simp only [List.length_append] at hd
  omega

/-- A case-insensitive lazy split with nonempty closer leaves both parts
strictly shorter. -/
theorem lazySplitCI_lt {closer l a b : List Char} (hcl : closer ≠ [])
    (h : lazySplitCI closer l = some (a, b)) :
    a.length < l.length ∧ b.length < l.length := by
  have hd := lazySplitCI_some_length closer l a b h
  have hp := List.length_pos.mpr hcl
  omega

/-- A parenthesis scan leaves both parts strictly shorter. -/
theorem scanParen_lt {l a b : List Char} (h : scanParen l = some (a, b)) :
    a.length < l.length ∧ b.length < l.length := by
  have hd := congrArg List.length (scanParen_some l a b h)
  simp only [List.length_append, List.length_cons] at hd
  omega

/-- Progress of the mention rule. -/
theorem matchUserLink_progress (l : List Char) (out : RuleOut)
    (rest : List Char) (h : matchUserLink l = some (out, rest)) :
    ruleProgress l out rest := by
  match l with
  | [] => simp [matchUserLink] at h
  | c :: r0 =>
      rw [matchUserLink] at h
      split at h
      · split at h
        · exact absurd h (by simp)
        · simp only [Option.some.injEq, Prod.mk.injEq] at h
          obtain ⟨ho, hr⟩ := h
          subst ho; subst hr
          refine ruleProgress_leaf _ ?_
          have hd : (List.dropWhile isWordDash r0).length ≤ r0.length :=
            (List.dropWhile_sublist _).length_le
          simp only [List.length_cons]
          omega
      · exact absurd h (by simp)

/-- Progress of the anchor-wrapped image rule. -/
theorem matchAnchorImage_progress (l : List Char) (out : RuleOut)
    (rest : List Char) (h : matchAnchorImage l = some (out, rest)) :
    ruleProgress l out rest := by
  rw [matchAnchorImage] at h
  simp only [Option.bind_eq_some] at h
  obtain ⟨l1, h1, l2, h2, l3, h3, p, hp, l4, h4, l5, h5, l6, h6, l7, h7,
    q, hq, l8, h8, l9, h9, hfin⟩ := h
  simp only [Option.some.injEq, Prod.mk.injEq] at hfin
  obtain ⟨ho, hr⟩ := hfin
  subst ho; subst hr
  refine ruleProgress_leaf _ ?_
  have e1 := eatCI_some_lt (by decide) h1
  have e2 := eatWs1_some _ _ h2
  have e3 := eatCI_some_lt (by decide) h3
  have e4 := eatAttrValue_some _ _ hp
  have e5 := eatToGt_some _ _ h4
  have d1 : (List.dropWhile isWs l4).length ≤ l4.length :=
    (List.dropWhile_sublist _).length_le
  have e6 := eatCI_some_lt (by decide) h5
  have e7 := eatWs1_some _ _ h6
  have e8 := eatCI_some_lt (by decide) h7
  have e9 := eatAttrValue_some _ _ hq
  have e10 := eatToGt_some _ _ h8
  have d2 : (List.dropWhile isWs l8).length ≤ l8.length :=
    (List.dropWhile_sublist _).length_le
  have e11 := eatCI_some_lt (by decide) h9
  omega

/-- Progress of the bare image-tag rule. -/
theorem matchImgTag_progress (l : List Char) (out : RuleOut)
    (rest : List Char) (h : matchImgTag l = some (out, rest)) :
    ruleProgress l out rest := by
  rw [matchImgTag] at h
  simp only [Option.bind_eq_some] at h
  obtain ⟨l1, h1, l2, h2, l3, h3, p, hp, l4, h4, hfin⟩ := h
  simp only [Option.some.injEq, Prod.mk.injEq] at hfin
  obtain ⟨ho, hr⟩ := hfin
  subst ho; subst hr
  refine ruleProgress_leaf _ ?_
  have e1 := eatCI_some_lt (by decide) h1
  have e2 := eatWs1_some _ _ h2
  have e3 := eatCI_some_lt (by decide) h3
  have e4 := eatAttrValue_some _ _ hp
  have e5 := eatToGt_some _ _ h4
  omega

/-- Progress of the HTML bold rule. -/
theorem matchBoldHtml_progress (l : List Char) (out : RuleOut)
    (rest : List Char) (h : matchBoldHtml l = some (out, rest)) :
    ruleProgress l out rest := by
  rw [matchBoldHtml] at h
  simp only [Option.bind_eq_some] at h
  obtain ⟨l1, h1, p, hp, hfin⟩ := h
  simp only [Option.some.injEq, Prod.mk.injEq] at hfin
  obtain ⟨ho, hr⟩ := hfin
  subst ho; subst hr
  have e1 := eatCI_some_lt (by decide) h1
  have e2 := lazySplitCI_lt (by decide : ("</b>".data : List Char) ≠ []) hp
  exact ruleProgress_recur _ _ (by omega) (by omega)

/-- Progress of the HTML anchor rule. -/
theorem matchAnchorTag_progress (l : List Char) (out : RuleOut)
    (rest : List Char) (h : matchAnchorTag l = some (out, rest)) :
    ruleProgress l out rest := by
  rw [matchAnchorTag] at h
  simp only [Option.bind_eq_some] at h
  obtain ⟨l1, h1, l2, h2, l3, h3, p, hp, l4, h4, q, hq, hfin⟩ := h
  simp only [Option.some.injEq, Prod.mk.injEq] at hfin
  obtain ⟨ho, hr⟩ := hfin
  subst ho; subst hr
  have e1 := eatCI_some_lt (by decide) h1
  have e2 := eatWs1_some _ _ h2
  have e3 := eatCI_some_lt (by decide) h3
  have e4 := eatAttrValue_some _ _ hp
  have e5 := eatToGt_some _ _ h4
  have e6 := lazySplitCI_lt (by decide : ("</a>".data : List Char) ≠ []) hq
  exact ruleProgress_recur _ _ (by omega) (by omega)

/-- Progress of the custom image-embed rule. -/
theorem matchImgEmbed_progress (l : List Char) (out : RuleOut)
    (rest : List Char) (h : matchImgEmbed l = some (out, rest)) :
    ruleProgress l out rest := by
  rw [matchImgEmbed] at h
  simp only [Option.bind_eq_some] at h
  obtain ⟨l1, h1, l2, h2, p, hp, hfin⟩ := h
  simp only [Option.some.injEq, Prod.mk.injEq] at hfin
  obtain ⟨ho, hr⟩ := hfin
  subst ho; subst hr
  refine ruleProgress_leaf _ ?_
  have e1 := eatP_some_lt (by decide) h1
  have d1 : (List.dropWhile Char.isDigit l1).length ≤ l1.length :=
    (List.dropWhile_sublist _).length_le
  have e2 := eatP_some_lt (by decide) h2
  have e3 := scanParen_lt hp
  omega

/-- Progress of the youtube-embed rule. -/
theorem matchYoutube_progress (l : List Char) (out : RuleOut)
    (rest : List Char) (h : matchYoutube l = some (out, rest)) :
    ruleProgress l out rest := by
  rw [matchYoutube] at h
  simp only [Option.bind_eq_some] at h
  obtain ⟨l1, h1, hfin⟩ := h
  have e1 := eatP_some_lt (by decide) h1
  split at hfin
  · exact absurd hfin (by simp)
  · split at hfin
    · next rp after hdrop =>
        simp only [Option.some.injEq, Prod.mk.injEq] at hfin
        obtain ⟨ho, hr⟩ := hfin
        subst ho; subst hr
        refine ruleProgress_leaf _ ?_
        have hlen := takeDrop_length notRp l1
        rw [hdrop] at hlen
        simp only [List.length_cons] at hlen
        omega
    · exact absurd hfin (by simp)

/-- Progress of the video-embed rule. -/
theorem matchVideo_progress (l : List Char) (out : RuleOut)
    (rest : List Char) (h : matchVideo l = some (out, rest)) :
    ruleProgress l out rest := by
  rw [matchVideo] at h
  simp only [Option.bind_eq_some] at h
  obtain ⟨l1, h1, hfin⟩ := h
  have e1 := eatP_some_lt (by decide) h1
  split at hfin
  · exact absurd hfin (by simp)
  · split at hfin
    · next rp after hdrop =>
        simp only [Option.some.injEq, Prod.mk.injEq] at hfin
        obtain ⟨ho, hr⟩ := hfin
        subst ho; subst hr
        refine ruleProgress_leaf _ ?_
        have hlen := takeDrop_length notRp l1
        rw [hdrop] at hlen
        simp only [List.length_cons] at hlen
        omega
    · exact absurd hfin (by simp)

/-- Progress of the markdown link rule. -/
theorem matchMdLink_progress (l : List Char) (out : RuleOut)
    (rest : List Char) (h : matchMdLink l = some (out, rest)) :
    ruleProgress l out rest := by
  rw [matchMdLink] at h
  simp only [Option.bind_eq_some] at h
  obtain ⟨l1, h1, hfin⟩ := h
  have e1 := eatP_some_lt (by decide) h1
  split at hfin
  · exact absurd hfin (by simp)
  · split at hfin
    · next rb l2 hdrop1 =>
        simp only [Option.bind_eq_some] at hfin
        obtain ⟨l3, h3, hfin⟩ := hfin
        have e2 := eatP_some_lt (by decide) h3
        have hlen1 := takeDrop_length notRb l1
        rw [hdrop1] at hlen1
        simp only [List.length_cons] at hlen1
        split at hfin
        · exact absurd hfin (by simp)
        · split at hfin
          · next rp after hdrop2 =>
              simp only [Option.some.injEq, Prod.mk.injEq] at hfin
              obtain ⟨ho, hr⟩ := hfin
              subst ho; subst hr
              refine ruleProgress_leaf _ ?_
              have hlen2 := takeDrop_length notRp l3
              rw [hdrop2] at hlen2
              simp only [List.length_cons] at hlen2
              omega
          · exact absurd hfin (by simp)
    · exact absurd hfin (by simp)

/-- Progress of the markdown bold rule. -/
theorem matchBoldMd_progress (l : List Char) (out : RuleOut)
    (rest : List Char) (h : matchBoldMd l = some (out, rest)) :
    ruleProgress l out rest := by
  rw [matchBoldMd] at h
  split at h
  · next p heq =>
      simp only [Option.bind_eq_some] at heq
      obtain ⟨l1, h1, h2⟩ := heq
      simp only [Option.some.injEq, Prod.mk.injEq] at h
      obtain ⟨ho, hr⟩ := h
      subst ho; subst hr
      have e1 := eatP_some_lt (by decide) h1
      have e2 := lazySplit1_lt (by decide : ("**".data : List Char) ≠ []) h2
      exact ruleProgress_recur _ _ (by omega) (by omega)
  · split at h
    · next p heq =>
        simp only [Option.bind_eq_some] at heq
        obtain ⟨l1, h1, h2⟩ := heq
        simp only [Option.some.injEq, Prod.mk.injEq] at h
        obtain ⟨ho, hr⟩ := h
        subst ho; subst hr
        have e1 := eatP_some_lt (by decide) h1
        have e2 := lazySplit1_lt (by decide : ("__".data : List Char) ≠ []) h2
        exact ruleProgress_recur _ _ (by omega) (by omega)
    · exact absurd h (by simp)

/-- Progress of the markdown italic rule. -/
theorem matchItalicMd_progress (l : List Char) (out : RuleOut)
    (rest : List Char) (h : matchItalicMd l = some (out, rest)) :
    ruleProgress l out rest := by
  rw [matchItalicMd] at h
  split at h
  · next p heq =>
      simp only [Option.bind_eq_some] at heq
      obtain ⟨l1, h1, h2⟩ := heq
      simp only [Option.some.injEq, Prod.mk.injEq] at h
      obtain ⟨ho, hr⟩ := h
      subst ho; subst hr
      have e1 := eatP_some_lt (by decide) h1
      have e2 := lazySplit1_lt (by decide : ("*".data : List Char) ≠ []) h2
      exact ruleProgress_recur _ _ (by omega) (by omega)
  · split at h
    · next p heq =>
        simp only [Option.bind_eq_some] at heq
        obtain ⟨l1, h1, h2⟩ := heq
        simp only [Option.some.injEq, Prod.mk.injEq] at h
        obtain ⟨ho, hr⟩ := h
        subst ho; subst hr
        have e1 := eatP_some_lt (by decide) h1
        have e2 := lazySplit1_lt (by decide : ("_".data : List Char) ≠ []) h2
        exact ruleProgress_recur _ _ (by omega) (by omega)
    · exact absurd h (by simp)

/-- Progress of the strike rule. -/
theorem matchStrike_progress (l : List Char) (out : RuleOut)
    (rest : List Char) (h : matchStrike l = some (out, rest)) :
    ruleProgress l out rest := by
  rw [matchStrike] at h
  split at h
  · next p heq =>
      simp only [Option.bind_eq_some] at heq
      obtain ⟨l1, h1, h2⟩ := heq
      simp only [Option.some.injEq, Prod.mk.injEq] at h
      obtain ⟨ho, hr⟩ := h
      subst ho; subst hr
      have e1 := eatP_some_lt (by decide) h1
      have e2 := lazySplit1_lt (by decide : ("~~".data : List Char) ≠ []) h2
      exact ruleProgress_recur _ _ (by omega) (by omega)
  · exact absurd h (by simp)

/-- Progress of the first spoiler rule. -/
theorem matchSpoilerA_progress (l : List Char) (out : RuleOut)
    (rest : List Char) (h : matchSpoilerA l = some (out, rest)) :
    ruleProgress l out rest := by
  rw [matchSpoilerA] at h
  split at h
  · next p heq =>
      simp only [Option.bind_eq_some] at heq
      obtain ⟨l1, h1, h2⟩ := heq
      simp only [Option.some.injEq, Prod.mk.injEq] at h
      obtain ⟨ho, hr⟩ := h
      subst ho; subst hr
      have e1 := eatP_some_lt (by decide) h1
      have e2 := lazySplit1_lt (by decide : ("!~".data : List Char) ≠ []) h2
      exact ruleProgress_recur _ _ (by omega) (by omega)
  · exact absurd h (by simp)

/-- Progress of the second spoiler rule. -/
theorem matchSpoilerB_progress (l : List Char) (out : RuleOut)
    (rest : List Char) (h : matchSpoilerB l = some (out, rest)) :
    ruleProgress l out rest := by
  rw [matchSpoilerB] at h
  split at h
  · next p heq =>
      simp only [Option.bind_eq_some] at heq
      obtain ⟨l1, h1, h2⟩ := heq
      simp only [Option.some.injEq, Prod.mk.injEq] at h
      obtain ⟨ho, hr⟩ := h
      subst ho; subst hr
      have e1 := eatP_some_lt (by decide) h1
      have e2 := lazySplit1_lt (by decide : ("!~".data : List Char) ≠ []) h2
      exact ruleProgress_recur _ _ (by omega) (by omega)
  · exact absurd h (by simp)

/-- Progress of the inline-code rule. -/
theorem matchInlineCode_progress (l : List Char) (out : RuleOut)
    (rest : List Char) (h : matchInlineCode l = some (out, rest)) :
    ruleProgress l out rest := by
  match l with
  | [] => simp [matchInlineCode] at h
  | c :: r0 =>
      rw [matchInlineCode] at h
      split at h
      · split at h
        · exact absurd h (by simp)
        · split at h
          · next bt after hdrop =>
              simp only [Option.some.injEq, Prod.mk.injEq] at h
              obtain ⟨ho, hr⟩ := h
              subst ho; subst hr
              refine ruleProgress_leaf _ ?_
              have hlen := takeDrop_length notBtick r0
              rw [hdrop] at hlen
              simp only [List.length_cons] at hlen ⊢
              omega
          · exact absurd h (by simp)
      · exact absurd h (by simp)

/-- Progress of the bare-URL rule. -/
theorem matchBareUrl_progress (l : List Char) (out : RuleOut)
    (rest : List Char) (h : matchBareUrl l = some (out, rest)) :
    ruleProgress l out rest := by
  rw [matchBareUrl] at h
  split at h
  · next r heq =>
      have e1 := eatP_some_lt (by decide) heq
      split at h
      · exact absurd h (by simp)
      · simp only [Option.some.injEq, Prod.mk.injEq] at h
        obtain ⟨ho, hr⟩ := h
        subst ho; subst hr
        refine ruleProgress_leaf _ ?_
        have d1 : (List.dropWhile urlChar r).length ≤ r.length :=
          (List.dropWhile_sublist _).length_le
        omega
  · split at h
    · next r heq =>
        have e1 := eatP_some_lt (by decide) heq
        split at h
        · exact absurd h (by simp)
        · simp only [Option.some.injEq, Prod.mk.injEq] at h
          obtain ⟨ho, hr⟩ := h
          subst ho; subst hr
          refine ruleProgress_leaf _ ?_
          have d1 : (List.dropWhile urlChar r).length ≤ r.length :=
            (List.dropWhile_sublist _).length_le
          omega
    · exact absurd h (by simp)

/-- Progress of the whole rule table: a successful inline match leaves the
rest, and any recursed-into content, strictly shorter. -/
theorem matchInline_progress (l : List Char) (out : RuleOut)
    (rest : List Char) (h : matchInline l = some (out, rest)) :
    ruleProgress l out rest := by
  rw [matchInline, inlineRules] at h
  rw [firstMatch] at h
  split at h
  · next r hr => exact matchUserLink_progress l out rest (by rw [hr, ← h])
  · rw [firstMatch] at h
    split at h
    · next r hr => exact matchAnchorImage_progress l out rest (by rw [hr, ← h])
    · rw [firstMatch] at h
      split at h
      · next r hr => exact matchImgTag_progress l out rest (by rw [hr, ← h])
      · rw [firstMatch] at h
        split at h
        · next r hr => exact matchBoldHtml_progress l out rest (by rw [hr, ← h])
        · rw [firstMatch] at h
          split at h
          · next r hr =>
              exact matchAnchorTag_progress l out rest (by rw [hr, ← h])
          · rw [firstMatch] at h
            split at h
            · next r hr =>
                exact matchImgEmbed_progress l out rest (by rw [hr, ← h])
            · rw [firstMatch] at h
              split at h
              · next r hr =>
                  exact matchYoutube_progress l out rest (by rw [hr, ← h])
              · rw [firstMatch] at h
                split at h
                · next r hr =>
                    exact matchVideo_progress l out rest (by rw [hr, ← h])
                · rw [firstMatch] at h
                  split at h
                  · next r hr =>
                      exact matchMdLink_progress l out rest (by rw [hr, ← h])
                  · rw [firstMatch] at h
                    split at h
                    · next r hr =>
                        exact matchBoldMd_progress l out rest (by rw [hr, ← h])
                    · rw [firstMatch] at h
                      split at h
                      · next r hr =>
                          exact matchItalicMd_progress l out rest
                            (by rw [hr, ← h])
                      · rw [firstMatch] at h
                        split at h
                        · next r hr =>
                            exact matchStrike_progress l out rest
                              (by rw [hr, ← h])
                        · rw [firstMatch] at h
                          split at h
                          · next r hr =>
                              exact matchSpoilerA_progress l out rest
                                (by rw [hr, ← h])
                          · rw [firstMatch] at h
                            split at h
                            · next r hr =>
                                exact matchSpoilerB_progress l out rest
                                  (by rw [hr, ← h])
                            · rw [firstMatch] at h
                              split at h
                              · next r hr =>
                                  exact matchInlineCode_progress l out rest
                                    (by rw [hr, ← h])
                              · rw [firstMatch] at h
                                split at h
                                · next r hr =>
                                    exact matchBareUrl_progress l out rest
                                      (by rw [hr, ← h])
                                · rw [firstMatch] at h
                                  exact absurd h (by simp)

/-- A found token index is a position inside the text. -/
theorem nextTokenIdx_lt :
    ∀ (l : List Char) (j : Nat), nextTokenIdx l = some j → j < l.length := by
  intro l
  induction l with
  | nil => intro j h; simp [nextTokenIdx] at h
  | cons c rest ih =>
      intro j h
      rw [nextTokenIdx] at h
      split at h
      · simp only [Option.some.injEq] at h
        simp [← h]
      · split at h
        · next j' heq =>
            simp only [Option.some.injEq] at h
            have := ih j' heq
            simp only [List.length_cons]
            omega
        · exact absurd h (by simp)

/-- The plain-text advance of the no-match branch is at least one and at
most the whole remaining text. -/
theorem fallbackLen_bounds (l : List Char) (hne : l ≠ []) :
    1 ≤ fallbackLen l ∧ fallbackLen l ≤ l.length := by
  have hpos : 0 < l.length := List.length_pos.mpr hne
  cases hn : nextTokenIdx l with
  | none =>
      rw [fallbackLen, hn]
      show 1 ≤ l.length ∧ l.length ≤ l.length
      omega
  | some j =>
      match j with
      | 0 =>
          rw [fallbackLen, hn]
          show 1 ≤ 1 ∧ 1 ≤ l.length
          omega
      | j + 1 =>
          have := nextTokenIdx_lt l (j + 1) hn
          rw [fallbackLen, hn]
          show 1 ≤ j + 1 ∧ j + 1 ≤ l.length
          omega

/-- The inline engine's result does not depend on the fuel once the fuel
covers the text length: since every iteration consumes at least one
character and recursed-into content is strictly shorter, fuel equal to the
length plus one always suffices, which is the termination argument for the
source's while loop. -/
theorem parseInlineF_fuel_irrelevant :
    ∀ (n : Nat) (l : List Char), l.length ≤ n →
      ∀ f₁ f₂ : Nat, l.length ≤ f₁ → l.length ≤ f₂ →
        parseInlineF f₁ l = parseInlineF f₂ l := by
  intro n
  induction n with
  | zero =>
      intro l hl f₁ f₂ _ _
      have : l = [] := List.length_eq_zero.mp (Nat.le_zero.mp hl)
      subst this
      rw [parseInlineF_nil, parseInlineF_nil]
  | succ n ih =>
      intro l hl f₁ f₂ h1 h2
      match l with
      | [] => rw [parseInlineF_nil, parseInlineF_nil]
      | c :: rest =>
          have hlen : (c :: rest).length = rest.length + 1 := by simp
          obtain ⟨a, rfl⟩ : ∃ a, f₁ = a + 1 :=
            ⟨f₁ - 1, by simp at h1; omega⟩
          obtain ⟨b, rfl⟩ : ∃ b, f₂ = b + 1 :=
            ⟨f₂ - 1, by simp at h2; omega⟩
          rw [parseInlineF, parseInlineF]
          cases hm : matchInline (c :: rest) with
          | some pr =>
              obtain ⟨out, after⟩ := pr
              obtain ⟨hrest, hcontent⟩ := matchInline_progress _ _ _ hm
              rw [hlen] at hrest
              cases out with
              | leaf s =>
                  simp only [hm]
                  rw [ih after (by simp at hl; omega) a b (by omega) (by omega)]
              | recur tag content =>
                  have hc := hcontent tag content rfl
                  rw [hlen] at hc
                  simp only [hm]
                  rw [ih content (by simp at hl; omega) a b (by omega) (by omega),
                    ih after (by simp at hl; omega) a b (by omega) (by omega)]
          | none =>
              simp only [hm]
              obtain ⟨hk1, hk2⟩ := fallbackLen_bounds (c :: rest) (by simp)
              have hdl : ((c :: rest).drop (fallbackLen (c :: rest))).length =
                  (c :: rest).length - fallbackLen (c :: rest) :=
                List.length_drop ..
              rw [ih ((c :: rest).drop (fallbackLen (c :: rest)))
                (by simp at hl ⊢; omega) a b (by omega) (by omega)]

/-- C6: the inline parsing loop makes progress on every nonempty text —
a successful rule match leaves strictly less text, and the no-match branch
accumulates at least one (and at most all) of the remaining characters into
a text segment — hence the fuelled loop's result is independent of the fuel
once it covers the text length, i.e. the loop terminates on every input
line. -/
theorem claim_C6_inline_progress (l : List Char) (hne : l ≠ []) :
    (∀ (out : RuleOut) (rest : List Char),
        matchInline l = some (out, rest) → rest.length < l.length) ∧
    (1 ≤ fallbackLen l ∧ fallbackLen l ≤ l.length) ∧
    (∀ f₁ f₂ : Nat, l.length ≤ f₁ → l.length ≤ f₂ →
        parseInlineF f₁ l = parseInlineF f₂ l) :=
  ⟨fun out rest h => (matchInline_progress l out rest h).1,
    fallbackLen_bounds l hne,
    fun f₁ f₂ h1 h2 =>
      parseInlineF_fuel_irrelevant l.length l le_rfl f₁ f₂ h1 h2⟩

/-- Witness for C6 at the concrete two-character text. -/
theorem claim_C6_inline_progress_witness :
    parseInlineF 2 ['a', 'b'] = parseInlineF 9 ['a', 'b'] :=
  (claim_C6_inline_progress ['a', 'b'] (by decide)).2.2 2 9
    (by decide) (by decide)

/-! ### Code blocks are verbatim (claim C8) -/

/-- Whether a segment is a fenced code block. -/
def isCodeBlockSeg : Seg → Bool
  | .codeBlock _ => true
  | _ => false

/-- The content of a code block produced by the block splitter. -/
def codeContent : Block → Option (List Char)
  | .codeB s => some s
  | _ => none

/-- Prepending plain text never adds or removes code-block segments. -/
theorem textCons_filter (plain : List Char) (segs : List Seg) :
    (textCons plain segs).filter isCodeBlockSeg =
      segs.filter isCodeBlockSeg := by
  unfold textCons
  split
  · next s rest => simp [List.filter_cons, isCodeBlockSeg]
  · simp [List.filter_cons, isCodeBlockSeg]

/-- The inline engine never produces a top-level code-block segment. -/
theorem parseInlineF_noCode :
    ∀ (fuel : Nat) (l : List Char),
      (parseInlineF fuel l).filter isCodeBlockSeg = [] := by
  intro fuel
  induction fuel with
  | zero => intro l; rfl
  | succ fuel ih =>
      intro l
      match l with
      | [] => rfl
      | c :: rest =>
          rw [parseInlineF]
          cases hm : matchInline (c :: rest) with
          | none =>
              rw [textCons_filter]
              exact ih _
          | some pr =>
              obtain ⟨out, after⟩ := pr
              cases out with
              | leaf s =>
                  cases s <;> simp [List.filter_cons, buildLeaf,
                    isCodeBlockSeg, ih]
              | recur tag content =>
                  cases tag <;> simp [List.filter_cons, buildSeg,
                    isCodeBlockSeg, ih]

/-- The centered-heading line rule never yields a code block. -/
theorem centerRule_noCode (line : List Char) (s : Seg)
    (h : centerRule line = some s) : isCodeBlockSeg s = false := by
  rw [centerRule] at h
  split at h
  · simp only [Option.some.injEq] at h
    rw [← h]
    rfl
  · exact absurd h (by simp)

/-- The heading line rule never yields a code block. -/
theorem headingRule_noCode (line : List Char) (s : Seg)
    (h : headingRule line = some s) : isCodeBlockSeg s = false := by
  rw [headingRule] at h
  split at h
  · split at h
    · split at h
      · simp only [Option.some.injEq] at h
        rw [← h]
        rfl
      · exact absurd h (by simp)
    · exact absurd h (by simp)
  · exact absurd h (by simp)

/-- The blockquote line rule never yields a code block. -/
theorem blockquoteRule_noCode (line : List Char) (s : Seg)
    (h : blockquoteRule line = some s) : isCodeBlockSeg s = false := by
  rw [blockquoteRule.eq_def] at h
  split at h
  · exact absurd h (by simp)
  · split at h
    · simp only [Option.some.injEq] at h
      rw [← h]
      rfl
    · exact absurd h (by simp)

/-- The horizontal-rule line rule never yields a code block. -/
theorem hrRule_noCode (line : List Char) (s : Seg)
    (h : hrRule line = some s) : isCodeBlockSeg s = false := by
  rw [hrRule] at h
  split at h
  · split at h
    · simp only [Option.some.injEq] at h
      rw [← h]
      rfl
    · exact absurd h (by simp)
  · exact absurd h (by simp)

/-- No line-start rule yields a code block. -/
theorem lineStartSeg_noCode (line : List Char) (s : Seg)
    (h : lineStartSeg line = some s) : isCodeBlockSeg s = false := by
  rw [lineStartSeg] at h
  split at h
  · next s' hr =>
      simp only [Option.some.injEq] at h
      exact h ▸ centerRule_noCode line s' hr
  · split at h
    · next s' hr =>
        simp only [Option.some.injEq] at h
        exact h ▸ headingRule_noCode line s' hr
    · split at h
      · next s' hr =>
          simp only [Option.some.injEq] at h
          exact h ▸ blockquoteRule_noCode line s' hr
      · exact hrRule_noCode line s h

/-- A single line yields no top-level code-block segment. -/
theorem lineSegs_noCode (line : List Char) :
    (lineSegs line).filter isCodeBlockSeg = [] := by
  rw [lineSegs]
  split
  · rfl
  · split
    · simp [List.filter_cons, isCodeBlockSeg]
    · split
      · next s hs =>
          simp [List.filter_cons, lineStartSeg_noCode line s hs]
      · exact parseInlineF_noCode _ _

/-- A plain-text chunk yields no top-level code-block segment. -/
theorem processLines_noCode :
    ∀ lines : List (List Char),
      (processLines lines).filter isCodeBlockSeg = [] := by
  intro lines
  induction lines with
  | nil => rfl
  | cons line rest ih =>
      match rest with
      | [] => exact lineSegs_noCode line
      | r :: rs =>
          show (lineSegs line ++ [Seg.br] ++ processLines (r :: rs)).filter
            isCodeBlockSeg = []
          simp [List.filter_append, lineSegs_noCode line, ih,
            List.filter_cons, isCodeBlockSeg]

/-- Processing the split blocks emits, at the top level, exactly the code
blocks of the splitter, in order, with their contents verbatim — whatever
the recursive parser `f` returns for center and spoiler blocks. -/
theorem processBlocksWith_code (f : List Char → Except Unit (List Seg)) :
    ∀ (blocks : List Block) (segs : List Seg),
      processBlocksWith f blocks = .ok segs →
      segs.filter isCodeBlockSeg =
        (blocks.filterMap codeContent).map
          (fun c => Seg.codeBlock (String.mk c)) := by
  intro blocks
  induction blocks with
  | nil =>
      intro segs h
      rw [processBlocksWith] at h
      simp only [Except.ok.injEq] at h
      rw [← h]
      rfl
  | cons b rest ih =>
      intro segs h
      cases b with
      | textB s =>
          rw [processBlocksWith] at h
          cases hr : processBlocksWith f rest with
          | error e => rw [hr] at h; simp at h
          | ok segs' =>
              rw [hr] at h
              simp only [Except.ok.injEq] at h
              rw [← h]
              simp [List.filter_append, processLines_noCode, ih segs' hr,
                List.filterMap_cons, codeContent]
      | codeB s =>
          rw [processBlocksWith] at h
          cases hr : processBlocksWith f rest with
          | error e => rw [hr] at h; simp at h
          | ok segs' =>
              rw [hr] at h
              simp only [Except.ok.injEq] at h
              rw [← h]
              simp [List.filter_cons, isCodeBlockSeg, ih segs' hr,
                List.filterMap_cons, codeContent]
      | centerB s =>
          rw [processBlocksWith] at h
          cases hf : f s with
          | error e => rw [hf] at h; simp at h
          | ok inner =>
              rw [hf] at h
              cases hr : processBlocksWith f rest with
              | error e => rw [hr] at h; simp at h
              | ok segs' =>
                  rw [hr] at h
                  simp only [Except.ok.injEq] at h
                  rw [← h]
                  simp [List.filter_cons, isCodeBlockSeg, ih segs' hr,
                    List.filterMap_cons, codeContent]
      | spoilerB s =>
          rw [processBlocksWith] at h
          cases hf : f s with
          | error e => rw [hf] at h; simp at h
          | ok inner =>
              rw [hf] at h
              cases hr : processBlocksWith f rest with
              | error e => rw [hr] at h; simp at h
              | ok segs' =>
                  rw [hr] at h
                  simp only [Except.ok.injEq] at h
                  rw [← h]
                  simp [List.filter_cons, isCodeBlockSeg, ih segs' hr,
                    List.filterMap_cons, codeContent]

/-- C8: whenever parsing succeeds, the top-level code-block segments of the
result are exactly the code blocks the block splitter cut out of the
cleaned text, in order, each with its fence content byte-for-byte — no
inline rule touches them and they are never recursed into. -/
theorem claim_C8_code_block_verbatim (s : String) (cleaned : List Char)
    (segs : List Seg)
    (hdec : decodeHtmlEntities (replaceBr s.data) = some cleaned)
    (hp : parseComment s = .ok segs) :
    segs.filter isCodeBlockSeg =
      ((splitBlocks cleaned).filterMap codeContent).map
        (fun c => Seg.codeBlock (String.mk c)) := by
  rw [parseComment, parseCommentF] at hp
  simp only [hdec] at hp
  exact processBlocksWith_code _ _ _ hp

/-- Witness for C8 at a concrete fenced block containing bold, link and
mention markers. -/
theorem claim_C8_code_block_verbatim_witness :
    ([Seg.codeBlock "**[x](y)** @a"] : List Seg).filter isCodeBlockSeg =
      ((splitBlocks ("```**[x](y)** @a```".data)).filterMap codeContent).map
        (fun c => Seg.codeBlock (String.mk c)) :=
  claim_C8_code_block_verbatim "```**[x](y)** @a```"
    ("```**[x](y)** @a```".data) [Seg.codeBlock "**[x](y)** @a"] rfl rfl

end AnilistDiscussion
